import Mathlib

/-!
Shallow embedding of the mdbook summary-generating preprocessor
(`src/lib.rs`): a recursive directory-to-chapter-tree builder.

The filesystem is modelled as a tree of entries (`FSEntry`): files carry
their textual content, directories carry their entries, and `other`
stands for directory entries that are neither regular files nor
directories (sockets, broken symlinks, ...).  Paths are lists of path
components.  The Rust code's panics (`unwrap`, `panic!`) are modelled as
`Except` errors, and the stub-file write performed by
`get_path_to_directory_content` is modelled by explicit state passing:
the traversal returns the updated entry list of the directory it
processed alongside the produced summary items.
-/

/-- Entries of a directory in the modelled filesystem. -/
inductive FSEntry where
  | file (name : String) (content : String)
  | dir (name : String) (entries : List FSEntry)
  | other (name : String)
deriving Repr

/-- The filename of a directory entry (`DirEntry::file_name`). -/
def FSEntry.name : FSEntry → String
  | .file n _ => n
  | .dir n _ => n
  | .other n => n

/-- `FileType::is_dir`. -/
def FSEntry.isDir : FSEntry → Bool
  | .dir _ _ => true
  | _ => false

/-- `FileType::is_file`. -/
def FSEntry.isFile : FSEntry → Bool
  | .file _ _ => true
  | _ => false

/-- The entries of a directory entry (empty for non-directories). -/
def FSEntry.entriesD : FSEntry → List FSEntry
  | .dir _ es => es
  | _ => []

mutual

/-- Boolean equality test on filesystem entries. -/
def eqEntry : FSEntry → FSEntry → Bool
  | .file n c, .file n2 c2 => n == n2 && c == c2
  | .dir n es, .dir n2 es2 => n == n2 && eqEntries es es2
  | .other n, .other n2 => n == n2
  | _, _ => false

/-- Boolean equality test on entry lists. -/
def eqEntries : List FSEntry → List FSEntry → Bool
  | [], [] => true
  | a :: as, b :: bs => eqEntry a b && eqEntries as bs
  | _, _ => false

end

mutual

theorem eqEntry_iff : ∀ a b : FSEntry, eqEntry a b = true ↔ a = b
  | .file n c, .file n2 c2 => by simp [eqEntry]
  | .file _ _, .dir _ _ => by simp [eqEntry]
  | .file _ _, .other _ => by simp [eqEntry]
  | .dir _ _, .file _ _ => by simp [eqEntry]
  | .dir n es, .dir n2 es2 => by
    rw [show eqEntry (.dir n es) (.dir n2 es2) = (n == n2 && eqEntries es es2)
      from rfl]
    simp [eqEntries_iff es es2]
  | .dir _ _, .other _ => by simp [eqEntry]
  | .other _, .file _ _ => by simp [eqEntry]
  | .other _, .dir _ _ => by simp [eqEntry]
  | .other n, .other n2 => by simp [eqEntry]

theorem eqEntries_iff : ∀ as bs : List FSEntry, eqEntries as bs = true ↔ as = bs
  | [], [] => by simp [eqEntries]
  | [], _ :: _ => by simp [eqEntries]
  | _ :: _, [] => by simp [eqEntries]
  | a :: as, b :: bs => by
    rw [show eqEntries (a :: as) (b :: bs) = (eqEntry a b && eqEntries as bs)
      from rfl]
    simp [eqEntry_iff a b, eqEntries_iff as bs]

end

instance : DecidableEq FSEntry := fun a b =>
  decidable_of_iff (eqEntry a b = true) (eqEntry_iff a b)

/-- The configuration options of the preprocessor (struct `Config`). -/
structure Config where
  get_chapter_name_from_file : Bool
  chapter_file_name : String
  create_missing_chapter_files : Bool
  ignore_missing_chapter_files : Bool
deriving Repr

/-- Index of the last `'.'` in a character list (accumulator form). -/
def lastDotPosAux : List Char → Nat → Option Nat → Option Nat
  | [], _, acc => acc
  | c :: cs, i, acc => lastDotPosAux cs (i + 1) (if c = '.' then some i else acc)

/-- `Path::file_stem` and `Path::extension` of a single path component,
following the Rust rules: split at the last `'.'`; a name whose only
`'.'` is at the start (such as `.gitignore`) has no extension and is its
own stem. -/
def rustStemExt (name : String) : String × Option String :=
  let cs := name.data
  match lastDotPosAux cs 0 none with
  | none => (name, none)
  | some 0 => (name, none)
  | some j => (⟨cs.take j⟩, some ⟨cs.drop (j + 1)⟩)

/-- `Path::file_stem` (`path.file_stem().unwrap()` in the source). -/
def rustFileStem (name : String) : String := (rustStemExt name).1

/-- `Path::extension`. -/
def rustExtension (name : String) : Option String := (rustStemExt name).2

/-- `BufRead::read_line` on the start of a document: everything up to and
including the first newline character (or the whole text when it has no
newline). -/
def readFirstLineAux : List Char → List Char
  | [] => []
  | c :: cs => if c = '\n' then [c] else c :: readFirstLineAux cs

/-- The first line of a document, newline included, as read by
`reader.read_line(&mut first_line)`. -/
def readFirstLine (content : String) : String := ⟨readFirstLineAux content.data⟩

/-- `str::strip_prefix` specialised to the heading marker `"# "`. -/
def stripHeadingMarker (s : String) : Option String :=
  match s.data with
  | '#' :: ' ' :: rest => some ⟨rest⟩
  | _ => none

/-- Byte-wise (equivalently, code-point-wise) strict ordering on
character lists, matching the `Ord` instance Rust uses on filenames. -/
def strLtB : List Char → List Char → Bool
  | [], [] => false
  | [], _ :: _ => true
  | _ :: _, [] => false
  | a :: as, b :: bs =>
    if a.toNat < b.toNat then true
    else if b.toNat < a.toNat then false
    else strLtB as bs

/-- `a ≤ b` on filenames, as a boolean: not `b < a`. -/
def nameLeB (a b : String) : Bool := !strLtB b.data a.data

/-- The ordering on directory entries used by
`entries.sort_by_key(|a| a.file_name())`. -/
def entryLe (a b : FSEntry) : Prop := nameLeB a.name b.name = true

instance : DecidableRel entryLe := fun a b =>
  inferInstanceAs (Decidable (nameLeB a.name b.name = true))

/-- `entries.sort_by_key(|a| a.file_name())`: a stable sort of the
entries by filename. -/
def sortByFileName (l : List FSEntry) : List FSEntry :=
  List.insertionSort entryLe l

/-- `get_markdown_files_and_directories`: keep the subdirectories and the
regular files whose extension is `md`; everything else is dropped
silently. -/
def getMarkdownFilesAndDirectories (entries : List FSEntry) : List FSEntry :=
  entries.filter fun e =>
    if e.isFile then
      rustExtension e.name == some "md"
    else
      e.isDir

/-- The filter applied to the sorted entries inside `generate_chapters`:
drop `SUMMARY`-stemmed entries at the traversal root, and drop file
entries whose stem is the configured chapter file name. -/
def keepEntry (sec : Option (List Nat)) (config : Config) (e : FSEntry) : Bool :=
  if sec.isNone && (rustFileStem e.name == "SUMMARY") then
    false
  else
    e.isDir || (rustFileStem e.name != config.chapter_file_name)

/-- `chapter_content.exists()`: some entry (file or directory) with the
given name is present. -/
def entryExists (entries : List FSEntry) (name : String) : Bool :=
  entries.any fun e => e.name == name

/-- Content of the regular file with the given name, when present. -/
def fetchContent : List FSEntry → String → Option String
  | [], _ => none
  | .file n c :: rest, name => if n == name then some c else fetchContent rest name
  | _ :: rest, name => fetchContent rest name

/-- Replace the entries of the first directory entry with the given name
(models the filesystem state of the parent after writes inside the
subdirectory). -/
def replaceDirEntry (name : String) (newSub : List FSEntry) : List FSEntry → List FSEntry
  | [] => []
  | x :: xs =>
    if x.isDir && (x.name == name) then .dir name newSub :: xs
    else x :: replaceDirEntry name newSub xs

/-- Failure modes of the traversal.  `missingChapterFile` models the
`panic!("Missing chapter file: ...")`, `readFailure` models the panics of
the unchecked file reads, and `outOfFuel` is the recursion-depth bound of
the embedding (never hit for fuel larger than the directory depth). -/
inductive GenError where
  | missingChapterFile (path : List String)
  | readFailure
  | outOfFuel
deriving Repr, DecidableEq

/-- `get_path_to_directory_content`: resolve the content document
`dir/<chapter_file_name>.md` of a directory chapter.  Returns the
resolved optional content path together with the (possibly extended by a
stub file) entry list of the directory. -/
def getPathToDirectoryContent (dirPath : List String) (entries : List FSEntry)
    (config : Config) : Except GenError (Option (List String) × List FSEntry) :=
  let chapterFile := config.chapter_file_name ++ ".md"
  let chapterContent := dirPath ++ [chapterFile]
  if !(entryExists entries chapterFile) then
    if config.create_missing_chapter_files then
      .ok (some chapterContent,
        entries ++ [.file chapterFile ("# " ++ chapterFile)])
    else if config.ignore_missing_chapter_files then
      .ok (none, entries)
    else
      .error (.missingChapterFile chapterContent)
  else
    .ok (some chapterContent, entries)

/-- `get_chapter_name`.  The first argument stands for the
`&Option<PathBuf>` of the source together with the filesystem lookup the
source performs when it opens the path: `some (some c)` is a path that
names an existing file with content `c`, `some none` a path that exists
but cannot be read as a file (the source would panic opening it), `none`
the absent path. -/
def getChapterName (pathContent : Option (Option String)) (config : Config)
    (filename : String) : Except GenError String :=
  match pathContent with
  | some contentOpt =>
    if config.get_chapter_name_from_file then
      match contentOpt with
      | some content =>
        .ok ((stripHeadingMarker (readFirstLine content)).getD filename)
      | none => .error .readFailure
    else
      .ok filename
  | none => .ok filename

/-- One entry of the produced summary (`SummaryItem::Link`): display
name, optional content path, nested items, and section number. -/
inductive SummaryItem where
  | link (name : String) (location : Option (List String))
      (nested_items : List SummaryItem) (number : Option (List Nat))
deriving Repr

/-- Display name of a summary item. -/
def SummaryItem.name : SummaryItem → String
  | .link n _ _ _ => n

/-- Content path of a summary item. -/
def SummaryItem.location : SummaryItem → Option (List String)
  | .link _ l _ _ => l

/-- Nested items of a summary item. -/
def SummaryItem.nested_items : SummaryItem → List SummaryItem
  | .link _ _ ns _ => ns

/-- Section number of a summary item. -/
def SummaryItem.number : SummaryItem → Option (List Nat)
  | .link _ _ _ nb => nb

mutual

/-- `generate_chapters`: filter the directory listing to markdown files
and directories, sort by filename, drop the reserved entries, and turn
the rest into numbered summary items.  `fuel` bounds the recursion depth
of the embedding; the updated entry list of the processed directory is
returned alongside the items. -/
def generateChapters (fuel : Nat) (dirPath : List String) (entries : List FSEntry)
    (sec : Option (List Nat)) (config : Config) :
    Except GenError (List SummaryItem × List FSEntry) :=
  match fuel with
  | 0 => .error .outOfFuel
  | f + 1 =>
    goEntries f dirPath sec config
      ((sortByFileName (getMarkdownFilesAndDirectories entries)).filter
        (keepEntry sec config))
      0 entries

/-- The enumerated mapping step of `generate_chapters`: process the kept
entries in order, assigning section number `parent ++ [i + 1]` to the
entry at zero-based position `i`, and threading the parent directory's
entry list through the subdirectory writes. -/
def goEntries (fuel : Nat) (dirPath : List String) (sec : Option (List Nat))
    (config : Config) :
    List FSEntry → Nat → List FSEntry →
    Except GenError (List SummaryItem × List FSEntry)
  | [], _, parentEntries => .ok ([], parentEntries)
  | e :: rest, i, parentEntries =>
    match fuel with
    | 0 => .error .outOfFuel
    | f + 1 =>
      let secNew := (sec.getD []) ++ [(i + 1) % 2 ^ 32]
      match e with
      | .file nm content =>
        match getChapterName (some (some content)) config (rustFileStem nm) with
        | .error err => .error err
        | .ok displayName =>
          match goEntries f dirPath sec config rest (i + 1) parentEntries with
          | .error err => .error err
          | .ok (items, pe) =>
            .ok (.link displayName (some (dirPath ++ [nm])) [] (some secNew) :: items, pe)
      | e' =>
        let nm := e'.name
        let subPath := dirPath ++ [nm]
        match getPathToDirectoryContent subPath e'.entriesD config with
        | .error err => .error err
        | .ok (contentPath, sub1) =>
          match generateChapters f subPath sub1 (some secNew) config with
          | .error err => .error err
          | .ok (children, sub2) =>
            match getChapterName
                (contentPath.map fun _ =>
                  fetchContent sub2 (config.chapter_file_name ++ ".md"))
                config (rustFileStem nm) with
            | .error err => .error err
            | .ok displayName =>
              match goEntries f dirPath sec config rest (i + 1)
                  (replaceDirEntry nm sub2 parentEntries) with
              | .error err => .error err
              | .ok (items, pe) =>
                .ok (.link displayName contentPath children (some secNew) :: items, pe)

end

/-! ### Properties of the filename ordering -/

theorem strLtB_irrefl : ∀ cs : List Char, strLtB cs cs = false := by
  intro cs
  induction cs with
  | nil => rfl
  | cons c cs ih => simp [strLtB, ih]

theorem strLtB_trans : ∀ {a b c : List Char},
    strLtB a b = true → strLtB b c = true → strLtB a c = true := by
  intro a
  induction a with
  | nil =>
    intro b c hab hbc
    cases b with
    | nil => simp [strLtB] at hab
    | cons y ys =>
      cases c with
      | nil => simp [strLtB] at hbc
      | cons z zs => simp [strLtB]
  | cons x xs ih =>
    intro b c hab hbc
    cases b with
    | nil => simp [strLtB] at hab
    | cons y ys =>
      cases c with
      | nil => simp [strLtB] at hbc
      | cons z zs =>
        simp only [strLtB] at hab hbc ⊢
        split_ifs at hab hbc ⊢ with h1 h2 h3 h4 h5 h6 <;>
          first
            | rfl
            | omega
            | (exact ih hab hbc)
            | (simp_all; omega)

theorem strLtB_cotrans : ∀ {a c : List Char}, strLtB a c = true →
    ∀ b : List Char, strLtB a b = true ∨ strLtB b c = true := by
  intro a
  induction a with
  | nil =>
    intro c hac b
    cases c with
    | nil => simp [strLtB] at hac
    | cons z zs =>
      cases b with
      | nil => right; simp [strLtB]
      | cons y ys => left; simp [strLtB]
  | cons x xs ih =>
    intro c hac b
    cases c with
    | nil => simp [strLtB] at hac
    | cons z zs =>
      cases b with
      | nil => right; simp [strLtB]
      | cons y ys =>
        simp only [strLtB] at hac
        rcases Nat.lt_trichotomy x.toNat y.toNat with hxy | hxy | hxy
        · left; simp [strLtB, hxy]
        · split_ifs at hac with h1 h2
          · right
            have hyz : y.toNat < z.toNat := by omega
            simp [strLtB, hyz]
          · have hxz : x.toNat = z.toNat := by omega
            rcases ih hac ys with h | h
            · left; simp [strLtB, hxy, Nat.lt_irrefl, h]
            · right
              have hyz : y.toNat = z.toNat := by omega
              simp [strLtB, hyz, Nat.lt_irrefl, h]
        · right
          split_ifs at hac with h1 h2
          · have hyz : y.toNat < z.toNat := by omega
            simp [strLtB, hyz]
          · have hyz : y.toNat < z.toNat := by omega
            simp [strLtB, hyz]

instance : IsTotal FSEntry entryLe := by
  constructor
  intro a b
  unfold entryLe nameLeB
  by_cases h : strLtB b.name.data a.name.data = true
  · right
    simp only [Bool.not_eq_true']
    by_contra h2
    simp only [Bool.not_eq_false] at h2
    have := strLtB_trans h h2
    rw [strLtB_irrefl] at this
    exact Bool.false_ne_true this
  · left
    simp [Bool.not_eq_true] at h
    simp [h]

instance : IsTrans FSEntry entryLe := by
  constructor
  intro a b c hab hbc
  unfold entryLe nameLeB at hab hbc ⊢
  simp only [Bool.not_eq_true'] at hab hbc ⊢
  by_contra h
  simp only [Bool.not_eq_false] at h
  rcases strLtB_cotrans h b.name.data with h2 | h2
  · rw [hbc] at h2; exact Bool.false_ne_true h2
  · rw [hab] at h2; exact Bool.false_ne_true h2

/-! ### Basic unfolding lemmas -/

theorem getChapterName_file (c : String) (config : Config) (fn : String) :
    getChapterName (some (some c)) config fn =
      .ok (if config.get_chapter_name_from_file then
            (stripHeadingMarker (readFirstLine c)).getD fn
          else fn) := by
  unfold getChapterName
  by_cases h : config.get_chapter_name_from_file <;> simp [h]

theorem getChapterName_none (config : Config) (fn : String) :
    getChapterName none config fn = .ok fn := rfl

/-! ### Unfolding equations of the traversal -/

theorem generateChapters_zero (dirPath : List String) (entries : List FSEntry)
    (sec : Option (List Nat)) (config : Config) :
    generateChapters 0 dirPath entries sec config = .error .outOfFuel := rfl

theorem generateChapters_succ (f : Nat) (dirPath : List String)
    (entries : List FSEntry) (sec : Option (List Nat)) (config : Config) :
    generateChapters (f + 1) dirPath entries sec config =
      goEntries f dirPath sec config
        ((sortByFileName (getMarkdownFilesAndDirectories entries)).filter
          (keepEntry sec config))
        0 entries := rfl

theorem goEntries_nil (fuel : Nat) (dirPath : List String) (sec : Option (List Nat))
    (config : Config) (i : Nat) (pe : List FSEntry) :
    goEntries fuel dirPath sec config [] i pe = .ok ([], pe) := by
  cases fuel <;> rfl

theorem goEntries_cons_zero (dirPath : List String) (sec : Option (List Nat))
    (config : Config) (e : FSEntry) (rest : List FSEntry) (i : Nat)
    (pe : List FSEntry) :
    goEntries 0 dirPath sec config (e :: rest) i pe = .error .outOfFuel := by
  cases e <;> rfl

theorem goEntries_file (f : Nat) (dirPath : List String) (sec : Option (List Nat))
    (config : Config) (nm content : String) (rest : List FSEntry) (i : Nat)
    (pe : List FSEntry) :
    goEntries (f + 1) dirPath sec config (.file nm content :: rest) i pe =
      match getChapterName (some (some content)) config (rustFileStem nm) with
      | .error err => .error err
      | .ok displayName =>
        match goEntries f dirPath sec config rest (i + 1) pe with
        | .error err => .error err
        | .ok (items, pe2) =>
          .ok (.link displayName (some (dirPath ++ [nm])) []
                (some ((sec.getD []) ++ [(i + 1) % 2 ^ 32])) :: items, pe2) := rfl

theorem goEntries_dir (f : Nat) (dirPath : List String) (sec : Option (List Nat))
    (config : Config) (nm : String) (subEntries rest : List FSEntry) (i : Nat)
    (pe : List FSEntry) :
    goEntries (f + 1) dirPath sec config (.dir nm subEntries :: rest) i pe =
      match getPathToDirectoryContent (dirPath ++ [nm]) subEntries config with
      | .error err => .error err
      | .ok (contentPath, sub1) =>
        match generateChapters f (dirPath ++ [nm]) sub1
            (some ((sec.getD []) ++ [(i + 1) % 2 ^ 32])) config with
        | .error err => .error err
        | .ok (children, sub2) =>
          match getChapterName
              (contentPath.map fun _ =>
                fetchContent sub2 (config.chapter_file_name ++ ".md"))
              config (rustFileStem nm) with
          | .error err => .error err
          | .ok displayName =>
            match goEntries f dirPath sec config rest (i + 1)
                (replaceDirEntry nm sub2 pe) with
            | .error err => .error err
            | .ok (items, pe2) =>
              .ok (.link displayName contentPath children
                    (some ((sec.getD []) ++ [(i + 1) % 2 ^ 32])) :: items, pe2) := rfl

theorem goEntries_other (f : Nat) (dirPath : List String) (sec : Option (List Nat))
    (config : Config) (nm : String) (rest : List FSEntry) (i : Nat)
    (pe : List FSEntry) :
    goEntries (f + 1) dirPath sec config (.other nm :: rest) i pe =
      match getPathToDirectoryContent (dirPath ++ [nm]) [] config with
      | .error err => .error err
      | .ok (contentPath, sub1) =>
        match generateChapters f (dirPath ++ [nm]) sub1
            (some ((sec.getD []) ++ [(i + 1) % 2 ^ 32])) config with
        | .error err => .error err
        | .ok (children, sub2) =>
          match getChapterName
              (contentPath.map fun _ =>
                fetchContent sub2 (config.chapter_file_name ++ ".md"))
              config (rustFileStem nm) with
          | .error err => .error err
          | .ok displayName =>
            match goEntries f dirPath sec config rest (i + 1)
                (replaceDirEntry nm sub2 pe) with
            | .error err => .error err
            | .ok (items, pe2) =>
              .ok (.link displayName contentPath children
                    (some ((sec.getD []) ++ [(i + 1) % 2 ^ 32])) :: items, pe2) := rfl

/-! ### Shape of a successful traversal step -/

theorem goEntries_cons_ok : ∀ {f : Nat} {dirPath : List String}
    {sec : Option (List Nat)} {config : Config} {e : FSEntry}
    {rest : List FSEntry} {i : Nat} {pe : List FSEntry}
    {items : List SummaryItem} {pe' : List FSEntry},
    goEntries (f + 1) dirPath sec config (e :: rest) i pe = .ok (items, pe') →
    ∃ hd tl pe1, items = hd :: tl ∧
      hd.number = some ((sec.getD []) ++ [(i + 1) % 2 ^ 32]) ∧
      goEntries f dirPath sec config rest (i + 1) pe1 = .ok (tl, pe') := by
  intro f dp sec cfg e rest i pe items pe' h
  cases e with
  | file nm content =>
    rw [goEntries_file] at h
    split at h
    · exact Except.noConfusion h
    · split at h
      · exact Except.noConfusion h
      · rename_i displayName hname items2 pe2 hrec
        cases h
        exact ⟨_, items2, pe, rfl, rfl, hrec⟩
  | dir nm subEntries =>
    rw [goEntries_dir] at h
    split at h
    · exact Except.noConfusion h
    · split at h
      · exact Except.noConfusion h
      · split at h
        · exact Except.noConfusion h
        · split at h
          · exact Except.noConfusion h
          · rename_i contentPath sub1 hres children sub2 hgen displayName hname
              items2 pe2 hrec
            cases h
            exact ⟨_, items2, _, rfl, rfl, hrec⟩
  | other nm =>
    rw [goEntries_other] at h
    split at h
    · exact Except.noConfusion h
    · split at h
      · exact Except.noConfusion h
      · split at h
        · exact Except.noConfusion h
        · split at h
          · exact Except.noConfusion h
          · rename_i contentPath sub1 hres children sub2 hgen displayName hname
              items2 pe2 hrec
            cases h
            exact ⟨_, items2, _, rfl, rfl, hrec⟩

/-! ### Numbering -/

theorem goEntries_numbers : ∀ (kept : List FSEntry) (fuel : Nat)
    (dirPath : List String) (sec : Option (List Nat)) (config : Config)
    (i : Nat) (pe : List FSEntry) (items : List SummaryItem) (pe' : List FSEntry),
    goEntries fuel dirPath sec config kept i pe = .ok (items, pe') →
    items.length = kept.length ∧
      ∀ j (h : j < items.length),
        (items.get ⟨j, h⟩).number =
          some ((sec.getD []) ++ [(i + j + 1) % 2 ^ 32]) := by
  intro kept
  induction kept with
  | nil =>
    intro fuel dp sec cfg i pe items pe' h
    rw [goEntries_nil] at h
    cases h
    exact ⟨rfl, fun j hj => absurd hj (by simp)⟩
  | cons e rest ih =>
    intro fuel dp sec cfg i pe items pe' h
    cases fuel with
    | zero =>
      rw [goEntries_cons_zero] at h
      exact Except.noConfusion h
    | succ f =>
      obtain ⟨hd, tl, pe1, rfl, hnum, hrec⟩ := goEntries_cons_ok h
      obtain ⟨hlen, hnums⟩ := ih f dp sec cfg (i + 1) pe1 tl pe' hrec
      refine ⟨by simp [hlen], ?_⟩
      intro j hj
      cases j with
      | zero => simpa using hnum
      | succ j' =>
        have hj' : j' < tl.length := by simp at hj; omega
        have hstep := hnums j' hj'
        rw [show i + (j' + 1) + 1 = i + 1 + j' + 1 from by omega]
        simp only [List.get_cons_succ]
        exact hstep

/-- The default configuration: no title derivation, index base name
`README`, strict missing-index policy. -/
def cfgDefault : Config := ⟨false, "README", false, false⟩

/-- Claim C1: for every directory processed by the builder, after
filtering and sorting, the `N` retained sibling entries receive section
numbers that are exactly the parent's number sequence with `1, ..., N`
appended, in order — contiguous starting at 1, with no gaps or repeats,
and each node's number is its parent's number with exactly one integer
appended.  (`N` is below `2 ^ 32`, the range of the `u32` the source casts
the index to.) -/
theorem claim1_numbering (fuel : Nat) (dirPath : List String)
    (entries : List FSEntry) (sec : Option (List Nat)) (config : Config)
    (items : List SummaryItem) (fs2 : List FSEntry)
    (hrun : generateChapters fuel dirPath entries sec config = .ok (items, fs2))
    (hsize : items.length < 2 ^ 32) :
    items.length =
      ((sortByFileName (getMarkdownFilesAndDirectories entries)).filter
        (keepEntry sec config)).length ∧
    ∀ j (h : j < items.length),
      (items.get ⟨j, h⟩).number = some ((sec.getD []) ++ [j + 1]) := by
  cases fuel with
  | zero =>
    rw [generateChapters_zero] at hrun
    exact Except.noConfusion hrun
  | succ f =>
    rw [generateChapters_succ] at hrun
    obtain ⟨hlen, hnums⟩ := goEntries_numbers _ _ _ _ _ _ _ _ _ hrun
    refine ⟨hlen, ?_⟩
    intro j hj
    have hpow : (2 : Nat) ^ 32 = 4294967296 := by norm_num
    have hmod : (0 + j + 1) % 2 ^ 32 = j + 1 := by
      rw [hpow]
      rw [hpow] at hsize
      omega
    rw [hnums j hj, hmod]

/-- A two-file directory on which C1 is instantiated. -/
def demoItems1 : List SummaryItem :=
  [.link "a" (some ["a.md"]) [] (some [1]),
   .link "b" (some ["b.md"]) [] (some [2])]

theorem claim1_numbering_witness :
    (generateChapters 10 [] [FSEntry.file "b.md" "x", FSEntry.file "a.md" "y"]
        none cfgDefault =
      .ok (demoItems1, [FSEntry.file "b.md" "x", FSEntry.file "a.md" "y"])) ∧
    (demoItems1.get ⟨0, by decide⟩).number = some [1] ∧
    (demoItems1.get ⟨1, by decide⟩).number = some [2] :=
  ⟨by rfl,
   (claim1_numbering 10 [] [FSEntry.file "b.md" "x", FSEntry.file "a.md" "y"]
      none cfgDefault demoItems1 _ (by rfl) (by decide)).2 0 (by decide),
   (claim1_numbering 10 [] [FSEntry.file "b.md" "x", FSEntry.file "a.md" "y"]
      none cfgDefault demoItems1 _ (by rfl) (by decide)).2 1 (by decide)⟩

/-! ### First-line reading -/

theorem strDataAppend (a b : String) : (a ++ b).data = a.data ++ b.data := by
  cases a
  cases b
  rfl

theorem strMkData (s : String) : String.mk s.data = s := by
  cases s
  rfl

theorem strExt {a b : String} (h : a.data = b.data) : a = b := by
  cases a
  cases b
  cases h
  rfl

theorem readFirstLineAux_eq_self : ∀ {cs : List Char}, ('\n') ∉ cs →
    readFirstLineAux cs = cs := by
  intro cs h
  induction cs with
  | nil => rfl
  | cons c cs ih =>
    simp only [List.mem_cons, not_or] at h
    have hc : ¬(c = '\n') := fun hc => h.1 hc.symm
    simp only [readFirstLineAux]
    rw [if_neg hc, ih h.2]

theorem readFirstLineAux_append : ∀ {cs : List Char} (ds : List Char),
    ('\n') ∉ cs → readFirstLineAux (cs ++ '\n' :: ds) = cs ++ ['\n'] := by
  intro cs
  induction cs with
  | nil => intro ds h; simp [readFirstLineAux]
  | cons c cs ih =>
    intro ds h
    simp only [List.mem_cons, not_or] at h
    have hc : ¬(c = '\n') := fun hc => h.1 hc.symm
    show readFirstLineAux (c :: (cs ++ '\n' :: ds)) = c :: (cs ++ ['\n'])
    simp only [readFirstLineAux]
    rw [if_neg hc, ih ds h.2]

theorem stripHeadingMarker_marked (t : String) :
    stripHeadingMarker ("# " ++ t) = some t := by
  unfold stripHeadingMarker
  rw [strDataAppend]
  simp [strMkData]

theorem readFirstLine_heading_line (t rest : String) (h : ('\n') ∉ t.data) :
    readFirstLine ("# " ++ t ++ "\n" ++ rest) = "# " ++ t ++ "\n" := by
  unfold readFirstLine
  rw [strDataAppend, strDataAppend, strDataAppend]
  have hsplit : "# ".data ++ t.data ++ "\n".data ++ rest.data =
      ('#' :: ' ' :: t.data) ++ '\n' :: rest.data := by simp
  rw [hsplit, readFirstLineAux_append rest.data (by
    simp only [List.mem_cons, not_or]
    exact ⟨by decide, by decide, h⟩)]
  conv_rhs => rw [← strMkData ("# " ++ t ++ "\n")]
  congr 1

theorem readFirstLine_no_newline (s : String) (h : ('\n') ∉ s.data) :
    readFirstLine s = s := by
  unfold readFirstLine
  rw [readFirstLineAux_eq_self h, strMkData]

/-- Claim C2 (counterexample): with title derivation enabled, a document
whose first line is `"# Getting Started"` followed by a newline yields
the display name `"Getting Started\n"` — the line terminator is kept, not
trimmed off, so the claimed display name `"Getting Started"` is wrong. -/
theorem claim2_title_counterexample :
    generateChapters 10 [] [FSEntry.file "guide.md" "# Getting Started\nmore"]
        none ⟨true, "README", false, false⟩ =
      .ok ([.link "Getting Started\n" (some ["guide.md"]) [] (some [1])],
        [FSEntry.file "guide.md" "# Getting Started\nmore"]) ∧
    "Getting Started\n" ≠ "Getting Started" :=
  ⟨by rfl, by decide⟩

/-- Claim C2 (amended): for every chapter with an available content path,
when `get_chapter_name_from_file` is true: if the document's first line
starts with `"# "` followed by text, the display name is that trailing
text including its line terminator when one is present (a first line
`"# Getting Started"` at the end of the document yields exactly
`"Getting Started"`, while `"# Getting Started\n"` yields
`"Getting Started\n"`); if the first line does not match the pattern, or
the option is false, or no content path is available, the display name is
the fallback filename stem. -/
theorem claim2_title_amended (config : Config) (t rest fallback content : String)
    (hd : config.get_chapter_name_from_file = true)
    (ht : ('\n') ∉ t.data) :
    getChapterName (some (some ("# " ++ t ++ "\n" ++ rest))) config fallback =
        .ok (t ++ "\n") ∧
    getChapterName (some (some ("# " ++ t))) config fallback = .ok t ∧
    (stripHeadingMarker (readFirstLine content) = none →
      getChapterName (some (some content)) config fallback = .ok fallback) ∧
    getChapterName none config fallback = .ok fallback ∧
    (∀ cfg2 : Config, cfg2.get_chapter_name_from_file = false →
      getChapterName (some (some content)) cfg2 fallback = .ok fallback) := by
  refine ⟨?_, ?_, ?_, rfl, ?_⟩
  · rw [getChapterName_file, if_pos hd, readFirstLine_heading_line t rest ht]
    rw [show ("# " ++ t ++ "\n" : String) = "# " ++ (t ++ "\n") from
      strExt (by simp only [strDataAppend, List.append_assoc])]
    rw [stripHeadingMarker_marked]
    rfl
  · rw [getChapterName_file, if_pos hd,
      readFirstLine_no_newline ("# " ++ t) (by
        rw [strDataAppend]
        simp only [List.mem_append, not_or]
        exact ⟨by decide, ht⟩),
      stripHeadingMarker_marked]
    rfl
  · intro hnone
    rw [getChapterName_file, if_pos hd, hnone]
    rfl
  · intro cfg2 h2
    rw [getChapterName_file, if_neg (by rw [h2]; exact Bool.false_ne_true)]

theorem claim2_title_amended_witness :
    getChapterName (some (some "# Getting Started\nmore"))
        ⟨true, "README", false, false⟩ "guide" = .ok "Getting Started\n" ∧
    getChapterName (some (some "# Getting Started"))
        ⟨true, "README", false, false⟩ "guide" = .ok "Getting Started" :=
  ⟨(claim2_title_amended ⟨true, "README", false, false⟩ "Getting Started" "more"
      "guide" "plain text" rfl (by decide)).1,
   (claim2_title_amended ⟨true, "README", false, false⟩ "Getting Started" "more"
      "guide" "plain text" rfl (by decide)).2.1⟩

/-- Claim C3: for a directory chapter whose index document
`<chapter_file_name>.md` does not exist, `create_missing_chapter_files`
makes the resolver create a stub at that path and return the path;
otherwise `ignore_missing_chapter_files` makes the directory yield a node
with no content path whose children are still populated from the nested
documents; otherwise the build fails with a `missingChapterFile` error
identifying the expected path.  If the document exists its path is
returned unchanged with no further check. -/
theorem claim3_missing_index_policy (config : Config) (dirPath : List String)
    (es : List FSEntry)
    (hmiss : entryExists es (config.chapter_file_name ++ ".md") = false) :
    (config.create_missing_chapter_files = true →
      getPathToDirectoryContent dirPath es config =
        .ok (some (dirPath ++ [config.chapter_file_name ++ ".md"]),
          es ++ [.file (config.chapter_file_name ++ ".md")
            ("# " ++ (config.chapter_file_name ++ ".md"))])) ∧
    (config.create_missing_chapter_files = false →
      config.ignore_missing_chapter_files = true →
      getPathToDirectoryContent dirPath es config = .ok (none, es)) ∧
    (config.create_missing_chapter_files = false →
      config.ignore_missing_chapter_files = false →
      getPathToDirectoryContent dirPath es config =
        .error (.missingChapterFile
          (dirPath ++ [config.chapter_file_name ++ ".md"]))) ∧
    (∀ es2 : List FSEntry,
      entryExists es2 (config.chapter_file_name ++ ".md") = true →
      getPathToDirectoryContent dirPath es2 config =
        .ok (some (dirPath ++ [config.chapter_file_name ++ ".md"]), es2)) ∧
    (∀ (f : Nat) (nm : String) (sec : Option (List Nat)) (i : Nat)
        (pe : List FSEntry) (children : List SummaryItem) (sub2 : List FSEntry),
      config.create_missing_chapter_files = false →
      config.ignore_missing_chapter_files = true →
      generateChapters f (dirPath ++ [nm]) es
          (some ((sec.getD []) ++ [(i + 1) % 2 ^ 32])) config =
        .ok (children, sub2) →
      goEntries (f + 1) dirPath sec config [.dir nm es] i pe =
        .ok ([.link (rustFileStem nm) none children
                (some ((sec.getD []) ++ [(i + 1) % 2 ^ 32]))],
          replaceDirEntry nm sub2 pe)) := by
  refine ⟨?_, ?_, ?_, ?_, ?_⟩
  · intro hc
    simp [getPathToDirectoryContent, hmiss, hc]
  · intro hc hi
    simp [getPathToDirectoryContent, hmiss, hc, hi]
  · intro hc hi
    simp [getPathToDirectoryContent, hmiss, hc, hi]
  · intro es2 hex
    simp [getPathToDirectoryContent, hex]
  · intro f nm sec i pe children sub2 hc hi hgen
    have hres : getPathToDirectoryContent (dirPath ++ [nm]) es config =
        .ok (none, es) := by
      simp [getPathToDirectoryContent, hmiss, hc, hi]
    simp only [goEntries_dir, FSEntry.name, FSEntry.entriesD, hres, hgen,
      Option.map_none', getChapterName_none, goEntries_nil]

/-- Configuration that creates missing index documents. -/
def cfgCreate : Config := ⟨false, "README", true, false⟩

/-- Configuration that tolerates missing index documents. -/
def cfgIgnore : Config := ⟨false, "README", false, true⟩

theorem claim3_missing_index_policy_witness :
    (getPathToDirectoryContent ["guide"] [FSEntry.file "setup.md" "s"] cfgCreate =
      .ok (some ["guide", "README.md"],
        [FSEntry.file "setup.md" "s", FSEntry.file "README.md" "# README.md"])) ∧
    (getPathToDirectoryContent ["guide"] [FSEntry.file "setup.md" "s"] cfgIgnore =
      .ok (none, [FSEntry.file "setup.md" "s"])) ∧
    (getPathToDirectoryContent ["guide"] [FSEntry.file "setup.md" "s"] cfgDefault =
      .error (.missingChapterFile ["guide", "README.md"])) ∧
    (getPathToDirectoryContent ["guide"] [FSEntry.file "README.md" "r"] cfgDefault =
      .ok (some ["guide", "README.md"], [FSEntry.file "README.md" "r"])) ∧
    (goEntries 6 [] none cfgIgnore [.dir "guide" [FSEntry.file "setup.md" "s"]] 0
        [FSEntry.dir "guide" [FSEntry.file "setup.md" "s"]] =
      .ok ([.link "guide" none
              [.link "setup" (some ["guide", "setup.md"]) [] (some [1, 1])]
              (some [1])],
        [FSEntry.dir "guide" [FSEntry.file "setup.md" "s"]])) :=
  ⟨(claim3_missing_index_policy cfgCreate ["guide"] [FSEntry.file "setup.md" "s"]
      (by decide)).1 rfl,
   (claim3_missing_index_policy cfgIgnore ["guide"] [FSEntry.file "setup.md" "s"]
      (by decide)).2.1 rfl rfl,
   (claim3_missing_index_policy cfgDefault ["guide"] [FSEntry.file "setup.md" "s"]
      (by decide)).2.2.1 rfl rfl,
   (claim3_missing_index_policy cfgDefault ["guide"] [FSEntry.file "setup.md" "s"]
      (by decide)).2.2.2.1 [FSEntry.file "README.md" "r"] (by decide),
   (claim3_missing_index_policy cfgIgnore [] [FSEntry.file "setup.md" "s"]
      (by decide)).2.2.2.2 5 "guide" none 0
      [FSEntry.dir "guide" [FSEntry.file "setup.md" "s"]]
      [.link "setup" (some ["guide", "setup.md"]) [] (some [1, 1])]
      [FSEntry.file "setup.md" "s"] rfl rfl (by rfl)⟩

/-- Claim C4: the entry filter returns exactly the directory entries that
are either a subdirectory or a regular file with extension `md`; every
other entry (wrong extension, no extension, special files) is excluded
silently, and a directory containing only non-matching files yields an
empty chapter sequence rather than a failure. -/
theorem claim4_entry_filter (entries : List FSEntry) :
    (∀ e : FSEntry, e ∈ getMarkdownFilesAndDirectories entries ↔
      (e ∈ entries ∧ (e.isDir = true ∨
        (e.isFile = true ∧ rustExtension e.name = some "md")))) ∧
    (∀ nm : String, FSEntry.other nm ∉ getMarkdownFilesAndDirectories entries) ∧
    (∀ (fuel : Nat) (dirPath : List String) (sec : Option (List Nat))
        (config : Config),
      (∀ e ∈ entries, e.isFile = true ∧ rustExtension e.name ≠ some "md") →
      generateChapters (fuel + 1) dirPath entries sec config =
        .ok ([], entries)) := by
  have hmem : ∀ e : FSEntry, e ∈ getMarkdownFilesAndDirectories entries ↔
      (e ∈ entries ∧ (e.isDir = true ∨
        (e.isFile = true ∧ rustExtension e.name = some "md"))) := by
    intro e
    rw [getMarkdownFilesAndDirectories, List.mem_filter]
    cases e <;>
      simp [FSEntry.isDir, FSEntry.isFile, FSEntry.name, beq_iff_eq]
  refine ⟨hmem, ?_, ?_⟩
  · intro nm hmm
    rcases (hmem (.other nm)).1 hmm with ⟨-, h | ⟨h, -⟩⟩ <;>
      simp [FSEntry.isDir, FSEntry.isFile] at h
  · intro fuel dp sec cfg hall
    have hfil : getMarkdownFilesAndDirectories entries = [] := by
      rw [getMarkdownFilesAndDirectories, List.filter_eq_nil]
      intro a ha
      obtain ⟨hf, hext⟩ := hall a ha
      simp [hf, beq_iff_eq, hext]
    rw [generateChapters_succ, hfil]
    exact goEntries_nil fuel dp sec cfg 0 entries

theorem claim4_entry_filter_witness :
    (FSEntry.dir "guide" [] ∈
        getMarkdownFilesAndDirectories
          [FSEntry.file "notes.txt" "n", FSEntry.dir "guide" [],
           FSEntry.file "intro.md" "i", FSEntry.other "dev"] ∧
      FSEntry.file "notes.txt" "n" ∉
        getMarkdownFilesAndDirectories
          [FSEntry.file "notes.txt" "n", FSEntry.dir "guide" [],
           FSEntry.file "intro.md" "i", FSEntry.other "dev"] ∧
      FSEntry.other "dev" ∉
        getMarkdownFilesAndDirectories
          [FSEntry.file "notes.txt" "n", FSEntry.dir "guide" [],
           FSEntry.file "intro.md" "i", FSEntry.other "dev"]) ∧
    generateChapters 3 [] [FSEntry.file "notes.txt" "n", FSEntry.file "img.png" "p"]
        none cfgDefault =
      .ok ([], [FSEntry.file "notes.txt" "n", FSEntry.file "img.png" "p"]) :=
  ⟨⟨(claim4_entry_filter
        [FSEntry.file "notes.txt" "n", FSEntry.dir "guide" [],
         FSEntry.file "intro.md" "i", FSEntry.other "dev"]).1
        (FSEntry.dir "guide" []) |>.2 (by constructor <;> decide),
    fun hmm => by
      have := (claim4_entry_filter
        [FSEntry.file "notes.txt" "n", FSEntry.dir "guide" [],
         FSEntry.file "intro.md" "i", FSEntry.other "dev"]).1
        (FSEntry.file "notes.txt" "n") |>.1 hmm
      revert this
      decide,
    (claim4_entry_filter
        [FSEntry.file "notes.txt" "n", FSEntry.dir "guide" [],
         FSEntry.file "intro.md" "i", FSEntry.other "dev"]).2.1 "dev"⟩,
   (claim4_entry_filter [FSEntry.file "notes.txt" "n", FSEntry.file "img.png" "p"]).2.2
      2 [] none cfgDefault (by decide)⟩

/-- A kept-out entry produces no chapter: a root call on a singleton
listing whose entry fails `keepEntry` returns no items. -/
theorem generateChapters_singleton_excluded (fuel : Nat) (dirPath : List String)
    (config : Config) (sec : Option (List Nat)) (e : FSEntry)
    (h : keepEntry sec config e = false) :
    generateChapters (fuel + 1) dirPath [e] sec config = .ok ([], [e]) := by
  rw [generateChapters_succ]
  have hsub : getMarkdownFilesAndDirectories [e] = [e] ∨
      getMarkdownFilesAndDirectories [e] = [] := by
    unfold getMarkdownFilesAndDirectories
    cases hpe : (if e.isFile then rustExtension e.name == some "md" else e.isDir)
    · right; simp [List.filter_cons, hpe]
    · left; simp [List.filter_cons, hpe]
  have hkept : (sortByFileName (getMarkdownFilesAndDirectories [e])).filter
      (keepEntry sec config) = [] := by
    rcases hsub with h1 | h1 <;> rw [h1]
    · show List.filter (keepEntry sec config) [e] = []
      simp [List.filter_cons, h]
    · rfl
  rw [hkept]
  exact goEntries_nil fuel dirPath sec config 0 [e]

/-- Claim C7 (counterexample): when the configured chapter file name is
itself `SUMMARY`, a file with stem `SUMMARY` in a nested directory (the
section prefix is `some [1]`, not the root) is excluded from the chapter
list, contradicting the claim that outside the root such an entry is
always kept as a chapter. -/
theorem claim7_summary_exclusion_counterexample :
    rustFileStem "SUMMARY.md" = "SUMMARY" ∧
    keepEntry (some [1]) ⟨false, "SUMMARY", false, false⟩
      (FSEntry.file "SUMMARY.md" "x") = false ∧
    generateChapters 3 ["d"] [FSEntry.file "SUMMARY.md" "x"] (some [1])
        ⟨false, "SUMMARY", false, false⟩ =
      .ok ([], [FSEntry.file "SUMMARY.md" "x"]) :=
  ⟨by decide, by decide, by rfl⟩

/-- Claim C7 (amended): an entry whose stem is the reserved name
`SUMMARY` is excluded at the traversal root (no parent section prefix)
whatever the configuration; in a nested directory it is kept — unless it
is a file whose stem also equals the configured chapter file name, in
which case the index-document exclusion still removes it. -/
theorem claim7_summary_exclusion_amended (config : Config) (e : FSEntry)
    (s : List Nat) (hstem : rustFileStem e.name = "SUMMARY") :
    (keepEntry none config e = false) ∧
    (e.isDir = true → keepEntry (some s) config e = true) ∧
    (e.isFile = true → config.chapter_file_name ≠ "SUMMARY" →
      keepEntry (some s) config e = true) ∧
    (e.isFile = true → config.chapter_file_name = "SUMMARY" →
      keepEntry (some s) config e = false) ∧
    (∀ (fuel : Nat) (dirPath : List String),
      generateChapters (fuel + 1) dirPath [e] none config = .ok ([], [e])) := by
  refine ⟨?_, ?_, ?_, ?_, ?_⟩
  · simp [keepEntry, hstem]
  · intro hd
    simp [keepEntry, hd]
  · intro hf hne
    have hd : e.isDir = false := by cases e <;> simp_all [FSEntry.isFile, FSEntry.isDir]
    simp [keepEntry, hstem, hd]
    exact fun hsym => hne hsym.symm
  · intro hf heq
    have hd : e.isDir = false := by cases e <;> simp_all [FSEntry.isFile, FSEntry.isDir]
    simp [keepEntry, hstem, hd, heq]
  · intro fuel dirPath
    exact generateChapters_singleton_excluded fuel dirPath config none e
      (by simp [keepEntry, hstem])

theorem claim7_summary_exclusion_amended_witness :
    keepEntry none cfgDefault (FSEntry.file "SUMMARY.md" "x") = false ∧
    keepEntry (some [2]) cfgDefault (FSEntry.file "SUMMARY.md" "x") = true ∧
    keepEntry (some [2]) cfgDefault (FSEntry.dir "SUMMARY" []) = true ∧
    generateChapters 4 [] [FSEntry.dir "SUMMARY" []] none cfgDefault =
      .ok ([], [FSEntry.dir "SUMMARY" []]) :=
  ⟨(claim7_summary_exclusion_amended cfgDefault (FSEntry.file "SUMMARY.md" "x")
      [2] (by decide)).1,
   (claim7_summary_exclusion_amended cfgDefault (FSEntry.file "SUMMARY.md" "x")
      [2] (by decide)).2.2.1 rfl (by decide),
   (claim7_summary_exclusion_amended cfgDefault (FSEntry.dir "SUMMARY" [])
      [2] (by decide)).2.1 rfl,
   (claim7_summary_exclusion_amended cfgDefault (FSEntry.dir "SUMMARY" [])
      [2] (by decide)).2.2.2.2 3 []⟩

/-! ### Full decomposition of a traversal step -/

theorem goEntries_cons_split : ∀ {f : Nat} {dp : List String}
    {sec : Option (List Nat)} {cfg : Config} {e : FSEntry}
    {rest : List FSEntry} {i : Nat} {pe : List FSEntry}
    {items : List SummaryItem} {pe' : List FSEntry},
    goEntries (f + 1) dp sec cfg (e :: rest) i pe = .ok (items, pe') →
    ∃ hd tl pe1, items = hd :: tl ∧
      goEntries f dp sec cfg rest (i + 1) pe1 = .ok (tl, pe') ∧
      ((∃ n c dn, e = .file n c ∧ pe1 = pe ∧
          getChapterName (some (some c)) cfg (rustFileStem n) = .ok dn ∧
          hd = .link dn (some (dp ++ [n])) []
            (some ((sec.getD []) ++ [(i + 1) % 2 ^ 32]))) ∨
       (e.isFile = false ∧ ∃ contentPath sub1 children sub2 dn,
          getPathToDirectoryContent (dp ++ [e.name]) e.entriesD cfg =
            .ok (contentPath, sub1) ∧
          generateChapters f (dp ++ [e.name]) sub1
            (some ((sec.getD []) ++ [(i + 1) % 2 ^ 32])) cfg =
            .ok (children, sub2) ∧
          getChapterName
            (contentPath.map fun _ =>
              fetchContent sub2 (cfg.chapter_file_name ++ ".md"))
            cfg (rustFileStem e.name) = .ok dn ∧
          pe1 = replaceDirEntry e.name sub2 pe ∧
          hd = .link dn contentPath children
            (some ((sec.getD []) ++ [(i + 1) % 2 ^ 32])))) := by
  intro f dp sec cfg e rest i pe items pe' h
  cases e with
  | file nm content =>
    rw [goEntries_file] at h
    split at h
    · exact Except.noConfusion h
    · rename_i displayName hname
      split at h
      · exact Except.noConfusion h
      · rename_i items2 pe2 hrec
        cases h
        exact ⟨_, items2, pe, rfl, hrec,
          Or.inl ⟨nm, content, displayName, rfl, rfl, hname, rfl⟩⟩
  | dir nm subEntries =>
    rw [goEntries_dir] at h
    split at h
    · exact Except.noConfusion h
    · rename_i contentPath sub1 hres
      split at h
      · exact Except.noConfusion h
      · rename_i children sub2 hgen
        split at h
        · exact Except.noConfusion h
        · rename_i displayName hname
          split at h
          · exact Except.noConfusion h
          · rename_i items2 pe2 hrec
            cases h
            exact ⟨_, items2, _, rfl, hrec,
              Or.inr ⟨rfl, contentPath, sub1, children, sub2, displayName,
                hres, hgen, hname, rfl, rfl⟩⟩
  | other nm =>
    rw [goEntries_other] at h
    split at h
    · exact Except.noConfusion h
    · rename_i contentPath sub1 hres
      split at h
      · exact Except.noConfusion h
      · rename_i children sub2 hgen
        split at h
        · exact Except.noConfusion h
        · rename_i displayName hname
          split at h
          · exact Except.noConfusion h
          · rename_i items2 pe2 hrec
            cases h
            exact ⟨_, items2, _, rfl, hrec,
              Or.inr ⟨rfl, contentPath, sub1, children, sub2, displayName,
                hres, hgen, hname, rfl, rfl⟩⟩

/-- Resolver rewrite: the index document exists. -/
theorem getPath_eq_exists {dp : List String} {es : List FSEntry} {cfg : Config}
    (hex : entryExists es (cfg.chapter_file_name ++ ".md") = true) :
    getPathToDirectoryContent dp es cfg =
      .ok (some (dp ++ [cfg.chapter_file_name ++ ".md"]), es) := by
  simp [getPathToDirectoryContent, hex]

/-- Resolver rewrite: missing document, stub creation enabled. -/
theorem getPath_eq_create {dp : List String} {es : List FSEntry} {cfg : Config}
    (hex : entryExists es (cfg.chapter_file_name ++ ".md") = false)
    (hc : cfg.create_missing_chapter_files = true) :
    getPathToDirectoryContent dp es cfg =
      .ok (some (dp ++ [cfg.chapter_file_name ++ ".md"]),
        es ++ [.file (cfg.chapter_file_name ++ ".md")
          ("# " ++ (cfg.chapter_file_name ++ ".md"))]) := by
  simp [getPathToDirectoryContent, hex, hc]

/-- Resolver rewrite: missing document, tolerated. -/
theorem getPath_eq_ignore {dp : List String} {es : List FSEntry} {cfg : Config}
    (hex : entryExists es (cfg.chapter_file_name ++ ".md") = false)
    (hc : cfg.create_missing_chapter_files = false)
    (hi : cfg.ignore_missing_chapter_files = true) :
    getPathToDirectoryContent dp es cfg = .ok (none, es) := by
  simp [getPathToDirectoryContent, hex, hc, hi]

/-- Resolver rewrite: missing document, strict default. -/
theorem getPath_eq_strict {dp : List String} {es : List FSEntry} {cfg : Config}
    (hex : entryExists es (cfg.chapter_file_name ++ ".md") = false)
    (hc : cfg.create_missing_chapter_files = false)
    (hi : cfg.ignore_missing_chapter_files = false) :
    getPathToDirectoryContent dp es cfg =
      .error (.missingChapterFile (dp ++ [cfg.chapter_file_name ++ ".md"])) := by
  simp [getPathToDirectoryContent, hex, hc, hi]

/-- The resolved content path of a directory is either absent or exactly
`dir/<chapter_file_name>.md`, and the resolver either leaves the entries
unchanged or appends exactly the stub file. -/
theorem getPath_shape {dp : List String} {es : List FSEntry} {cfg : Config}
    {cp : Option (List String)} {es' : List FSEntry}
    (h : getPathToDirectoryContent dp es cfg = .ok (cp, es')) :
    (cp = none ∨ cp = some (dp ++ [cfg.chapter_file_name ++ ".md"])) ∧
    (es' = es ∨ es' = es ++ [.file (cfg.chapter_file_name ++ ".md")
      ("# " ++ (cfg.chapter_file_name ++ ".md"))]) := by
  cases hex : entryExists es (cfg.chapter_file_name ++ ".md") with
  | true =>
    rw [getPath_eq_exists hex] at h
    cases h
    exact ⟨Or.inr rfl, Or.inl rfl⟩
  | false =>
    cases hc : cfg.create_missing_chapter_files with
    | true =>
      rw [getPath_eq_create hex hc] at h
      cases h
      exact ⟨Or.inr rfl, Or.inr rfl⟩
    | false =>
      cases hi : cfg.ignore_missing_chapter_files with
      | true =>
        rw [getPath_eq_ignore hex hc hi] at h
        cases h
        exact ⟨Or.inl rfl, Or.inl rfl⟩
      | false =>
        rw [getPath_eq_strict hex hc hi] at h
        exact Except.noConfusion h

/-! ### Shape preservation of the filesystem across a run -/

/-- Relation between an entry before and after a run: files and special
entries are untouched, directories keep their name (their entries may
have gained stub files). -/
inductive EShape : FSEntry → FSEntry → Prop where
  | file (n c : String) : EShape (.file n c) (.file n c)
  | dir (n : String) (es es2 : List FSEntry) : EShape (.dir n es) (.dir n es2)
  | other (n : String) : EShape (.other n) (.other n)

/-- Pointwise `EShape` between two directory listings. -/
def ShapeL (l l2 : List FSEntry) : Prop := List.Forall₂ EShape l l2

theorem eshape_refl (a : FSEntry) : EShape a a := by cases a <;> constructor

theorem shapeL_refl (l : List FSEntry) : ShapeL l l := by
  induction l with
  | nil => exact List.Forall₂.nil
  | cons a l ih => exact List.Forall₂.cons (eshape_refl a) ih

theorem eshape_trans {a b c : FSEntry} (h1 : EShape a b) (h2 : EShape b c) :
    EShape a c := by
  cases h1 <;> cases h2 <;> constructor

theorem shapeL_trans : ∀ {l1 l2 l3 : List FSEntry},
    ShapeL l1 l2 → ShapeL l2 l3 → ShapeL l1 l3 := by
  intro l1 l2 l3 h1
  induction h1 generalizing l3 with
  | nil => intro h2; cases h2; exact List.Forall₂.nil
  | cons ha hl ih =>
    intro h2
    cases h2 with
    | cons hb h2b => exact List.Forall₂.cons (eshape_trans ha hb) (ih h2b)

theorem eshape_name {a b : FSEntry} (h : EShape a b) : a.name = b.name := by
  cases h <;> rfl

theorem eshape_isDir {a b : FSEntry} (h : EShape a b) : a.isDir = b.isDir := by
  cases h <;> rfl

theorem eshape_isFile {a b : FSEntry} (h : EShape a b) : a.isFile = b.isFile := by
  cases h <;> rfl

theorem shapeL_replace (nm : String) (sub2 : List FSEntry) :
    ∀ pe : List FSEntry, ShapeL pe (replaceDirEntry nm sub2 pe) := by
  intro pe
  induction pe with
  | nil => exact List.Forall₂.nil
  | cons x xs ih =>
    simp only [replaceDirEntry]
    by_cases hx : (x.isDir && (x.name == nm)) = true
    · rw [if_pos hx]
      refine List.Forall₂.cons ?_ (shapeL_refl xs)
      cases x with
      | dir n es =>
        simp only [FSEntry.name, Bool.and_eq_true, beq_iff_eq] at hx
        rw [hx.2]
        exact EShape.dir nm es sub2
      | file n c => simp [FSEntry.isDir] at hx
      | other n => simp [FSEntry.isDir] at hx
    · rw [if_neg hx]
      exact List.Forall₂.cons (eshape_refl x) ih

theorem shape_preservation : ∀ fuel : Nat,
    (∀ (dp : List String) (entries : List FSEntry) (sec : Option (List Nat))
      (cfg : Config) (items : List SummaryItem) (fs2 : List FSEntry),
      generateChapters fuel dp entries sec cfg = .ok (items, fs2) →
      ShapeL entries fs2) ∧
    (∀ (kept : List FSEntry) (dp : List String) (sec : Option (List Nat))
      (cfg : Config) (i : Nat) (pe : List FSEntry) (items : List SummaryItem)
      (pe' : List FSEntry),
      goEntries fuel dp sec cfg kept i pe = .ok (items, pe') →
      ShapeL pe pe') := by
  intro fuel
  induction fuel with
  | zero =>
    constructor
    · intro dp entries sec cfg items fs2 h
      rw [generateChapters_zero] at h
      exact Except.noConfusion h
    · intro kept dp sec cfg i pe items pe' h
      cases kept with
      | nil => rw [goEntries_nil] at h; cases h; exact shapeL_refl pe
      | cons e rest =>
        rw [goEntries_cons_zero] at h
        exact Except.noConfusion h
  | succ f ih =>
    constructor
    · intro dp entries sec cfg items fs2 h
      rw [generateChapters_succ] at h
      exact ih.2 _ _ _ _ _ _ _ _ h
    · intro kept dp sec cfg i pe items pe' h
      cases kept with
      | nil => rw [goEntries_nil] at h; cases h; exact shapeL_refl pe
      | cons e rest =>
        obtain ⟨hd, tl, pe1, -, hrec, hcase⟩ := goEntries_cons_split h
        have h1 : ShapeL pe pe1 := by
          rcases hcase with ⟨n, c, dn, -, rfl, -, -⟩ |
            ⟨-, cp, sub1, ch, sub2, dn, -, -, -, rfl, -⟩
          · exact shapeL_refl _
          · exact shapeL_replace e.name sub2 _
        exact shapeL_trans h1 (ih.2 _ _ _ _ _ _ _ _ hrec)

theorem genShape {fuel : Nat} {dp : List String} {entries : List FSEntry}
    {sec : Option (List Nat)} {cfg : Config} {items : List SummaryItem}
    {fs2 : List FSEntry}
    (h : generateChapters fuel dp entries sec cfg = .ok (items, fs2)) :
    ShapeL entries fs2 :=
  (shape_preservation fuel).1 _ _ _ _ _ _ h

theorem fetchContent_shape : ∀ {l l2 : List FSEntry}, ShapeL l l2 →
    ∀ name, fetchContent l name = fetchContent l2 name := by
  intro l l2 h
  induction h with
  | nil => intro name; rfl
  | cons ha hl ih =>
    intro name
    cases ha with
    | file n c => simp [fetchContent, ih name]
    | dir n es es2 => simp [fetchContent, ih name]
    | other n => simp [fetchContent, ih name]

theorem namesL_shape : ∀ {l l2 : List FSEntry}, ShapeL l l2 →
    l.map FSEntry.name = l2.map FSEntry.name := by
  intro l l2 h
  induction h with
  | nil => rfl
  | cons ha hl ih => simp [eshape_name ha, ih]

theorem fetchContent_append_stub {es : List FSEntry} {nm c : String}
    (h : entryExists es nm = false) :
    fetchContent (es ++ [.file nm c]) nm = some c := by
  induction es with
  | nil => simp [fetchContent]
  | cons e rest ih =>
    rw [entryExists] at h
    simp only [List.any_cons, Bool.or_eq_false_iff, beq_eq_false_iff_ne] at h
    obtain ⟨hne, hrest⟩ := h
    have hr : entryExists rest nm = false := hrest
    cases e with
    | file n c2 =>
      rw [List.cons_append]
      show (if n == nm then some c2 else fetchContent (rest ++ [.file nm c]) nm) =
        some c
      rw [if_neg (by simpa using hne), ih hr]
    | dir n es2 =>
      rw [List.cons_append]
      show fetchContent (rest ++ [.file nm c]) nm = some c
      exact ih hr
    | other n =>
      rw [List.cons_append]
      show fetchContent (rest ++ [.file nm c]) nm = some c
      exact ih hr

/-- Claim C9: when stub creation is enabled and a directory lacks its
index document, the stub written at that path has exactly the single line
`"# <chapter_file_name>.md"` with no trailing newline; consequently, with
title derivation also enabled, that directory's display name becomes
`"<chapter_file_name>.md"` (for instance `"README.md"`) rather than the
directory's own name. -/
theorem claim9_stub_title (config : Config) (dirPath : List String)
    (es : List FSEntry) (nm : String) (sec : Option (List Nat)) (i f : Nat)
    (pe : List FSEntry) (children : List SummaryItem) (sub2 : List FSEntry)
    (hc : config.create_missing_chapter_files = true)
    (hd : config.get_chapter_name_from_file = true)
    (hmiss : entryExists es (config.chapter_file_name ++ ".md") = false)
    (hnl : ('\n') ∉ config.chapter_file_name.data)
    (hgen : generateChapters f (dirPath ++ [nm])
        (es ++ [.file (config.chapter_file_name ++ ".md")
          ("# " ++ (config.chapter_file_name ++ ".md"))])
        (some ((sec.getD []) ++ [(i + 1) % 2 ^ 32])) config =
      .ok (children, sub2)) :
    getPathToDirectoryContent (dirPath ++ [nm]) es config =
      .ok (some ((dirPath ++ [nm]) ++ [config.chapter_file_name ++ ".md"]),
        es ++ [.file (config.chapter_file_name ++ ".md")
          ("# " ++ (config.chapter_file_name ++ ".md"))]) ∧
    goEntries (f + 1) dirPath sec config [.dir nm es] i pe =
      .ok ([.link (config.chapter_file_name ++ ".md")
              (some ((dirPath ++ [nm]) ++ [config.chapter_file_name ++ ".md"]))
              children (some ((sec.getD []) ++ [(i + 1) % 2 ^ 32]))],
        replaceDirEntry nm sub2 pe) := by
  have hres := @getPath_eq_create (dirPath ++ [nm]) es config hmiss hc
  refine ⟨hres, ?_⟩
  have hshape := genShape hgen
  have hfetch : fetchContent sub2 (config.chapter_file_name ++ ".md") =
      some ("# " ++ (config.chapter_file_name ++ ".md")) := by
    rw [← fetchContent_shape hshape]
    exact fetchContent_append_stub hmiss
  have hnl2 : ('\n') ∉ ("# " ++ (config.chapter_file_name ++ ".md")).data := by
    rw [strDataAppend, strDataAppend]
    simp only [List.mem_append, not_or]
    exact ⟨by decide, hnl, by decide⟩
  have hname : getChapterName
      (some (fetchContent sub2 (config.chapter_file_name ++ ".md")))
      config (rustFileStem nm) = .ok (config.chapter_file_name ++ ".md") := by
    rw [hfetch, getChapterName_file, if_pos hd,
      readFirstLine_no_newline _ hnl2, stripHeadingMarker_marked]
    rfl
  simp only [goEntries_dir, FSEntry.entriesD, FSEntry.name, hres, hgen,
    Option.map_some', hname, goEntries_nil]

theorem claim9_stub_title_witness :
    goEntries 6 [] none ⟨true, "README", true, false⟩
        [.dir "guide" [FSEntry.file "setup.md" "s"]] 0
        [FSEntry.dir "guide" [FSEntry.file "setup.md" "s"]] =
      .ok ([.link "README.md" (some ["guide", "README.md"])
              [.link "setup" (some ["guide", "setup.md"]) [] (some [1, 1])]
              (some [1])],
        [FSEntry.dir "guide"
          [FSEntry.file "setup.md" "s", FSEntry.file "README.md" "# README.md"]]) :=
  (claim9_stub_title ⟨true, "README", true, false⟩ [] [FSEntry.file "setup.md" "s"]
    "guide" none 0 5 [FSEntry.dir "guide" [FSEntry.file "setup.md" "s"]]
    [.link "setup" (some ["guide", "setup.md"]) [] (some [1, 1])]
    [FSEntry.file "setup.md" "s", FSEntry.file "README.md" "# README.md"]
    rfl rfl (by decide) (by decide) (by rfl)).2

/-! ### Ordering of the produced siblings -/

/-- How a produced item reflects the directory entry it came from: a file
entry yields an item located at the file itself; a directory (or other)
entry yields an item located at its index document (or nowhere). -/
def itemMatchesEntry (dp : List String) (cfg : Config) (e : FSEntry)
    (it : SummaryItem) : Prop :=
  if e.isFile then it.location = some (dp ++ [e.name])
  else it.location = none ∨
    it.location = some ((dp ++ [e.name]) ++ [cfg.chapter_file_name ++ ".md"])

theorem goEntries_matches : ∀ (kept : List FSEntry) (fuel : Nat)
    (dp : List String) (sec : Option (List Nat)) (cfg : Config) (i : Nat)
    (pe : List FSEntry) (items : List SummaryItem) (pe' : List FSEntry),
    goEntries fuel dp sec cfg kept i pe = .ok (items, pe') →
    List.Forall₂ (itemMatchesEntry dp cfg) kept items := by
  intro kept
  induction kept with
  | nil =>
    intro fuel dp sec cfg i pe items pe' h
    rw [goEntries_nil] at h
    cases h
    exact List.Forall₂.nil
  | cons e rest ih =>
    intro fuel dp sec cfg i pe items pe' h
    cases fuel with
    | zero =>
      rw [goEntries_cons_zero] at h
      exact Except.noConfusion h
    | succ f =>
      obtain ⟨hd, tl, pe1, rfl, hrec, hcase⟩ := goEntries_cons_split h
      refine List.Forall₂.cons ?_ (ih _ _ _ _ _ _ _ _ hrec)
      rcases hcase with ⟨n, c, dn, rfl, -, -, rfl⟩ |
        ⟨hnf, cp, sub1, ch, sub2, dn, hres, -, -, -, rfl⟩
      · simp [itemMatchesEntry, FSEntry.isFile, FSEntry.name, SummaryItem.location]
      · rw [itemMatchesEntry, if_neg (by rw [hnf]; exact Bool.false_ne_true)]
        rcases (getPath_shape hres).1 with h1 | h1 <;> rw [h1] <;>
          simp [SummaryItem.location]

/-- Claim C5: siblings are ordered by the lexicographic (byte-wise on the
UTF-8 encoding, equivalently code-point-wise) comparison of their
filenames: the kept listing the items are built from is sorted under
`entryLe`, it is a permutation of the filtered listing, and the produced
items correspond to it position by position, so the produced sibling
order is exactly the sorted order of the filtered directory listing. -/
theorem claim5_sorted_siblings (fuel : Nat) (dp : List String)
    (entries : List FSEntry) (sec : Option (List Nat)) (cfg : Config)
    (items : List SummaryItem) (fs2 : List FSEntry)
    (hrun : generateChapters fuel dp entries sec cfg = .ok (items, fs2)) :
    List.Sorted entryLe
      ((sortByFileName (getMarkdownFilesAndDirectories entries)).filter
        (keepEntry sec cfg)) ∧
    ((sortByFileName (getMarkdownFilesAndDirectories entries)).filter
        (keepEntry sec cfg)).Perm
      ((getMarkdownFilesAndDirectories entries).filter (keepEntry sec cfg)) ∧
    List.Forall₂ (itemMatchesEntry dp cfg)
      ((sortByFileName (getMarkdownFilesAndDirectories entries)).filter
        (keepEntry sec cfg))
      items := by
  cases fuel with
  | zero =>
    rw [generateChapters_zero] at hrun
    exact Except.noConfusion hrun
  | succ f =>
    rw [generateChapters_succ] at hrun
    refine ⟨?_, ?_, goEntries_matches _ _ _ _ _ _ _ _ _ hrun⟩
    · exact (List.sorted_insertionSort entryLe
        (getMarkdownFilesAndDirectories entries)).filter (keepEntry sec cfg)
    · exact (List.perm_insertionSort entryLe
        (getMarkdownFilesAndDirectories entries)).filter (keepEntry sec cfg)

/-- The spec's end-to-end sample: `intro.md` beside `guide/` containing
`README.md` and `setup.md`. -/
def exFS5 : List FSEntry :=
  [.file "intro.md" "i",
   .dir "guide" [.file "README.md" "r", .file "setup.md" "s"]]

/-- The tree produced for `exFS5`: `guide` sorts before `intro`. -/
def exItems5 : List SummaryItem :=
  [.link "guide" (some ["guide", "README.md"])
     [.link "setup" (some ["guide", "setup.md"]) [] (some [1, 1])] (some [1]),
   .link "intro" (some ["intro.md"]) [] (some [2])]

theorem claim5_sorted_siblings_witness :
    (generateChapters 10 [] exFS5 none cfgDefault = .ok (exItems5, exFS5)) ∧
    List.Sorted entryLe
      ((sortByFileName (getMarkdownFilesAndDirectories exFS5)).filter
        (keepEntry none cfgDefault)) ∧
    List.Forall₂ (itemMatchesEntry [] cfgDefault)
      ((sortByFileName (getMarkdownFilesAndDirectories exFS5)).filter
        (keepEntry none cfgDefault))
      exItems5 :=
  ⟨by rfl,
   (claim5_sorted_siblings 10 [] exFS5 none cfgDefault exItems5 exFS5 (by rfl)).1,
   (claim5_sorted_siblings 10 [] exFS5 none cfgDefault exItems5 exFS5 (by rfl)).2.2⟩

/-! ### Filtering commutes with the stable sort -/

theorem orderedInsert_of_le_front {e : FSEntry} :
    ∀ {m : List FSEntry}, (∀ x ∈ m, entryLe e x) →
    List.orderedInsert entryLe e m = e :: m := by
  intro m h
  cases m with
  | nil => rfl
  | cons x xs =>
    rw [List.orderedInsert, if_pos (h x (List.mem_cons_self x xs))]

theorem filter_orderedInsert_sorted (p : FSEntry → Bool) (e : FSEntry) :
    ∀ {l : List FSEntry}, List.Sorted entryLe l →
    (List.orderedInsert entryLe e l).filter p =
      if p e then List.orderedInsert entryLe e (l.filter p) else l.filter p := by
  intro l
  induction l with
  | nil =>
    intro hs
    cases hpe : p e <;> simp [List.orderedInsert, hpe]
  | cons b l ih =>
    intro hs
    have hsl : List.Sorted entryLe l := hs.of_cons
    have hbl : ∀ x ∈ l, entryLe b x := List.rel_of_sorted_cons hs
    by_cases hle : entryLe e b
    · rw [List.orderedInsert, if_pos hle]
      cases hpe : p e with
      | true =>
        cases hpb : p b with
        | true =>
          have hfront : List.orderedInsert entryLe e (b :: List.filter p l) =
              e :: b :: List.filter p l := by
            rw [List.orderedInsert, if_pos hle]
          simp [List.filter_cons, hpe, hpb, hfront]
        | false =>
          have hall : ∀ x ∈ List.filter p l, entryLe e x := fun x hx =>
            IsTrans.trans e b x hle (hbl x (List.mem_of_mem_filter hx))
          have hfront := orderedInsert_of_le_front hall
          simp [List.filter_cons, hpe, hpb, hfront]
      | false =>
        simp [List.filter_cons, hpe]
    · rw [List.orderedInsert, if_neg hle]
      cases hpe : p e with
      | true =>
        cases hpb : p b with
        | true =>
          have hback : List.orderedInsert entryLe e (b :: List.filter p l) =
              b :: List.orderedInsert entryLe e (List.filter p l) := by
            rw [List.orderedInsert, if_neg hle]
          simp only [List.filter_cons, hpb, if_true, ih hsl, hpe]
          exact hback.symm
        | false =>
          simp only [List.filter_cons, hpb, hpe, ih hsl]
          simp
      | false =>
        cases hpb : p b with
        | true =>
          simp only [List.filter_cons, hpb, hpe, ih hsl]
          simp
        | false =>
          simp only [List.filter_cons, hpb, hpe, ih hsl]
          simp

theorem filter_sortByFileName (p : FSEntry → Bool) (l : List FSEntry) :
    (sortByFileName l).filter p = sortByFileName (l.filter p) := by
  induction l with
  | nil => rfl
  | cons a l ih =>
    show (List.orderedInsert entryLe a (List.insertionSort entryLe l)).filter p =
      List.insertionSort entryLe ((a :: l).filter p)
    rw [filter_orderedInsert_sorted p a (List.sorted_insertionSort entryLe l)]
    cases hpa : p a with
    | true =>
      rw [List.filter_cons, hpa, if_pos rfl]
      show List.orderedInsert entryLe a ((sortByFileName l).filter p) =
        List.orderedInsert entryLe a (sortByFileName (l.filter p))
      rw [ih]
    | false =>
      rw [List.filter_cons, hpa, if_neg (by simp)]
      exact ih

/-! ### The produced items do not depend on the parent accumulator -/

theorem goEntries_items_indep_pe : ∀ (kept : List FSEntry) (fuel : Nat)
    (dp : List String) (sec : Option (List Nat)) (cfg : Config) (i : Nat)
    (pe1 pe2 : List FSEntry),
    (goEntries fuel dp sec cfg kept i pe1).map Prod.fst =
      (goEntries fuel dp sec cfg kept i pe2).map Prod.fst := by
  intro kept
  induction kept with
  | nil =>
    intro fuel dp sec cfg i pe1 pe2
    rw [goEntries_nil, goEntries_nil]
    rfl
  | cons e rest ih =>
    intro fuel dp sec cfg i pe1 pe2
    cases fuel with
    | zero => rw [goEntries_cons_zero, goEntries_cons_zero]
    | succ f =>
      cases e with
      | file nm content =>
        rw [goEntries_file, goEntries_file]
        cases hname : getChapterName (some (some content)) cfg (rustFileStem nm) with
        | error err => rfl
        | ok dn =>
          have hih := ih f dp sec cfg (i + 1) pe1 pe2
          cases h1 : goEntries f dp sec cfg rest (i + 1) pe1 with
          | error err =>
            rw [h1] at hih
            cases h2 : goEntries f dp sec cfg rest (i + 1) pe2 with
            | error err2 =>
              rw [h2] at hih
              simp only [Except.map] at hih
              cases hih
              rfl
            | ok pr2 =>
              rw [h2] at hih
              simp only [Except.map] at hih
              exact Except.noConfusion hih
          | ok pr =>
            rw [h1] at hih
            cases h2 : goEntries f dp sec cfg rest (i + 1) pe2 with
            | error err2 =>
              rw [h2] at hih
              simp only [Except.map] at hih
              exact Except.noConfusion hih
            | ok pr2 =>
              rw [h2] at hih
              simp only [Except.map] at hih
              obtain ⟨tl1, peA⟩ := pr
              obtain ⟨tl2, peB⟩ := pr2
              simp only [Except.ok.injEq] at hih
              subst hih
              rfl
      | dir nm sub =>
        rw [goEntries_dir, goEntries_dir]
        cases hres : getPathToDirectoryContent (dp ++ [nm]) sub cfg with
        | error err => rfl
        | ok pr0 =>
          obtain ⟨cp, sub1⟩ := pr0
          simp only []
          cases hgen : generateChapters f (dp ++ [nm]) sub1
              (some ((sec.getD []) ++ [(i + 1) % 2 ^ 32])) cfg with
          | error err => rfl
          | ok pr1 =>
            obtain ⟨ch, sub2⟩ := pr1
            simp only []
            cases hnm : getChapterName
                (cp.map fun _ => fetchContent sub2 (cfg.chapter_file_name ++ ".md"))
                cfg (rustFileStem nm) with
            | error err => rfl
            | ok dn =>
              simp only []
              have hih := ih f dp sec cfg (i + 1)
                (replaceDirEntry nm sub2 pe1) (replaceDirEntry nm sub2 pe2)
              cases h1 : goEntries f dp sec cfg rest (i + 1)
                  (replaceDirEntry nm sub2 pe1) with
              | error err =>
                rw [h1] at hih
                cases h2 : goEntries f dp sec cfg rest (i + 1)
                    (replaceDirEntry nm sub2 pe2) with
                | error err2 =>
                  rw [h2] at hih
                  simp only [Except.map] at hih
                  cases hih
                  rfl
                | ok pr2 =>
                  rw [h2] at hih
                  simp only [Except.map] at hih
                  exact Except.noConfusion hih
              | ok pr =>
                rw [h1] at hih
                cases h2 : goEntries f dp sec cfg rest (i + 1)
                    (replaceDirEntry nm sub2 pe2) with
                | error err2 =>
                  rw [h2] at hih
                  simp only [Except.map] at hih
                  exact Except.noConfusion hih
                | ok pr2 =>
                  rw [h2] at hih
                  simp only [Except.map] at hih
                  obtain ⟨tl1, peA⟩ := pr
                  obtain ⟨tl2, peB⟩ := pr2
                  simp only [Except.ok.injEq] at hih
                  subst hih
                  rfl
      | other nm =>
        rw [goEntries_other, goEntries_other]
        cases hres : getPathToDirectoryContent (dp ++ [nm]) [] cfg with
        | error err => rfl
        | ok pr0 =>
          obtain ⟨cp, sub1⟩ := pr0
          simp only []
          cases hgen : generateChapters f (dp ++ [nm]) sub1
              (some ((sec.getD []) ++ [(i + 1) % 2 ^ 32])) cfg with
          | error err => rfl
          | ok pr1 =>
            obtain ⟨ch, sub2⟩ := pr1
            simp only []
            cases hnm : getChapterName
                (cp.map fun _ => fetchContent sub2 (cfg.chapter_file_name ++ ".md"))
                cfg (rustFileStem nm) with
            | error err => rfl
            | ok dn =>
              simp only []
              have hih := ih f dp sec cfg (i + 1)
                (replaceDirEntry nm sub2 pe1) (replaceDirEntry nm sub2 pe2)
              cases h1 : goEntries f dp sec cfg rest (i + 1)
                  (replaceDirEntry nm sub2 pe1) with
              | error err =>
                rw [h1] at hih
                cases h2 : goEntries f dp sec cfg rest (i + 1)
                    (replaceDirEntry nm sub2 pe2) with
                | error err2 =>
                  rw [h2] at hih
                  simp only [Except.map] at hih
                  cases hih
                  rfl
                | ok pr2 =>
                  rw [h2] at hih
                  simp only [Except.map] at hih
                  exact Except.noConfusion hih
              | ok pr =>
                rw [h1] at hih
                cases h2 : goEntries f dp sec cfg rest (i + 1)
                    (replaceDirEntry nm sub2 pe2) with
                | error err2 =>
                  rw [h2] at hih
                  simp only [Except.map] at hih
                  exact Except.noConfusion hih
                | ok pr2 =>
                  rw [h2] at hih
                  simp only [Except.map] at hih
                  obtain ⟨tl1, peA⟩ := pr
                  obtain ⟨tl2, peB⟩ := pr2
                  simp only [Except.ok.injEq] at hih
                  subst hih
                  rfl

/-- Claim C6: a file entry whose stem equals the configured chapter file
name is excluded from its own directory's sibling chapter list (its
presence changes nothing about the produced items), while directory
entries with that stem are not excluded; the exclusion applies only to
the listing of the directory being processed. -/
theorem claim6_index_stem_excluded (cfg : Config) :
    (∀ (sec : Option (List Nat)) (n c : String),
      rustFileStem n = cfg.chapter_file_name →
      keepEntry sec cfg (.file n c) = false) ∧
    (∀ (s : List Nat) (n : String) (es : List FSEntry),
      keepEntry (some s) cfg (.dir n es) = true) ∧
    (∀ (n : String) (es : List FSEntry), rustFileStem n ≠ "SUMMARY" →
      keepEntry none cfg (.dir n es) = true) ∧
    (∀ (fuel : Nat) (dp : List String) (sec : Option (List Nat))
        (l1 l2 : List FSEntry) (n c : String),
      rustFileStem n = cfg.chapter_file_name →
      (generateChapters fuel dp (l1 ++ .file n c :: l2) sec cfg).map Prod.fst =
        (generateChapters fuel dp (l1 ++ l2) sec cfg).map Prod.fst) := by
  have key1 : ∀ (sec : Option (List Nat)) (n c : String),
      rustFileStem n = cfg.chapter_file_name →
      keepEntry sec cfg (.file n c) = false := by
    intro sec n c h
    unfold keepEntry
    split
    · rfl
    · simp [FSEntry.isDir, FSEntry.name, h]
  refine ⟨key1, ?_, ?_, ?_⟩
  · intro s n es
    simp [keepEntry, FSEntry.isDir]
  · intro n es hne
    simp [keepEntry, FSEntry.isDir, FSEntry.name, beq_iff_eq, hne]
  · intro fuel dp sec l1 l2 n c h
    cases fuel with
    | zero => rw [generateChapters_zero, generateChapters_zero]
    | succ f =>
      rw [generateChapters_succ, generateChapters_succ]
      have hkept : (sortByFileName
            (getMarkdownFilesAndDirectories (l1 ++ .file n c :: l2))).filter
            (keepEntry sec cfg) =
          (sortByFileName (getMarkdownFilesAndDirectories (l1 ++ l2))).filter
            (keepEntry sec cfg) := by
        rw [filter_sortByFileName, filter_sortByFileName]
        congr 1
        unfold getMarkdownFilesAndDirectories
        rw [List.filter_filter, List.filter_filter, List.filter_append,
          List.filter_append, List.filter_cons]
        have hq : (keepEntry sec cfg (.file n c) &&
            (if (FSEntry.file n c).isFile then
              rustExtension (FSEntry.file n c).name == some "md"
            else (FSEntry.file n c).isDir)) = false := by
          rw [key1 sec n c h]
          rfl
        rw [hq]
        simp
      rw [hkept]
      exact goEntries_items_indep_pe _ _ _ _ _ _ _ _

theorem claim6_index_stem_excluded_witness :
    keepEntry none cfgDefault (FSEntry.file "README.md" "r") = false ∧
    keepEntry (some [3]) cfgDefault (FSEntry.file "README.md" "r") = false ∧
    keepEntry (some [3]) cfgDefault (FSEntry.dir "README" []) = true ∧
    (generateChapters 10 []
        [FSEntry.file "intro.md" "i", FSEntry.file "README.md" "r"]
        none cfgDefault).map Prod.fst =
      (generateChapters 10 [] [FSEntry.file "intro.md" "i"]
        none cfgDefault).map Prod.fst :=
  ⟨(claim6_index_stem_excluded cfgDefault).1 none "README.md" "r" (by decide),
   (claim6_index_stem_excluded cfgDefault).1 (some [3]) "README.md" "r" (by decide),
   (claim6_index_stem_excluded cfgDefault).2.1 [3] "README" [],
   (claim6_index_stem_excluded cfgDefault).2.2.2 10 [] none
     [FSEntry.file "intro.md" "i"] [] "README.md" "r" (by decide)⟩

/-! ### All content paths occurring in a produced tree -/

mutual

/-- Every content path mentioned by an item or its descendants. -/
def itemLocs : SummaryItem → List (List String)
  | .link _ loc nested _ => loc.toList ++ itemsLocs nested

/-- Every content path mentioned by a forest of items. -/
def itemsLocs : List SummaryItem → List (List String)
  | [] => []
  | it :: rest => itemLocs it ++ itemsLocs rest

end

theorem locs_spec : ∀ fuel : Nat,
    (∀ (dp : List String) (entries : List FSEntry) (sec : Option (List Nat))
      (cfg : Config) (items : List SummaryItem) (fs2 : List FSEntry),
      generateChapters fuel dp entries sec cfg = .ok (items, fs2) →
      ∀ q ∈ itemsLocs items, dp.length + 1 ≤ q.length ∧
        (q.length = dp.length + 1 → ∃ fn, q = dp ++ [fn] ∧
          rustFileStem fn ≠ cfg.chapter_file_name ∧
          rustExtension fn = some "md")) ∧
    (∀ (kept : List FSEntry) (dp : List String) (sec : Option (List Nat))
      (cfg : Config) (i : Nat) (pe : List FSEntry) (items : List SummaryItem)
      (pe' : List FSEntry),
      goEntries fuel dp sec cfg kept i pe = .ok (items, pe') →
      (∀ e ∈ kept, keepEntry sec cfg e = true) →
      (∀ e ∈ kept, e.isFile = true → rustExtension e.name = some "md") →
      ∀ q ∈ itemsLocs items, dp.length + 1 ≤ q.length ∧
        (q.length = dp.length + 1 → ∃ fn, q = dp ++ [fn] ∧
          rustFileStem fn ≠ cfg.chapter_file_name ∧
          rustExtension fn = some "md")) := by
  intro fuel
  induction fuel with
  | zero =>
    constructor
    · intro dp entries sec cfg items fs2 h
      rw [generateChapters_zero] at h
      exact Except.noConfusion h
    · intro kept dp sec cfg i pe items pe' h hkeep hmd
      cases kept with
      | nil =>
        rw [goEntries_nil] at h
        cases h
        intro q hq
        simp [itemsLocs] at hq
      | cons e rest =>
        rw [goEntries_cons_zero] at h
        exact Except.noConfusion h
  | succ f ih =>
    constructor
    · intro dp entries sec cfg items fs2 h
      rw [generateChapters_succ] at h
      refine ih.2 _ _ _ _ _ _ _ _ h ?_ ?_
      · intro e he
        exact List.of_mem_filter he
      · intro e he hf
        have h1 : e ∈ sortByFileName (getMarkdownFilesAndDirectories entries) :=
          List.mem_of_mem_filter he
        have h2 : e ∈ getMarkdownFilesAndDirectories entries :=
          (List.perm_insertionSort entryLe _).mem_iff.mp h1
        have h3 := List.of_mem_filter h2
        rw [hf] at h3
        simpa using h3
    · intro kept dp sec cfg i pe items pe' h hkeep hmd
      cases kept with
      | nil =>
        rw [goEntries_nil] at h
        cases h
        intro q hq
        simp [itemsLocs] at hq
      | cons e rest =>
        obtain ⟨hd, tl, pe1, rfl, hrec, hcase⟩ := goEntries_cons_split h
        have ihtl := ih.2 rest dp sec cfg (i + 1) pe1 tl pe' hrec
          (fun x hx => hkeep x (List.mem_cons_of_mem e hx))
          (fun x hx => hmd x (List.mem_cons_of_mem e hx))
        intro q hq
        rw [show itemsLocs (hd :: tl) = itemLocs hd ++ itemsLocs tl from rfl,
          List.mem_append] at hq
        rcases hq with hq | hq
        · rcases hcase with ⟨n, c, dn, rfl, -, -, rfl⟩ |
            ⟨hnf, cp, sub1, ch, sub2, dn, hres, hgen, -, -, rfl⟩
          · rw [show itemLocs (.link dn (some (dp ++ [n])) []
                (some ((sec.getD []) ++ [(i + 1) % 2 ^ 32]))) =
                [dp ++ [n]] from rfl] at hq
            rw [List.mem_singleton] at hq
            subst hq
            have hq1 : (dp ++ [n]).length = dp.length + 1 := by simp
            refine ⟨by omega, ?_⟩
            intro h0
            refine ⟨n, rfl, ?_, ?_⟩
            · have hk := hkeep (.file n c) (List.mem_cons_self _ _)
              rw [keepEntry] at hk
              by_cases hcond :
                  (sec.isNone && (rustFileStem (FSEntry.file n c).name ==
                    "SUMMARY")) = true
              · rw [if_pos hcond] at hk
                exact Bool.noConfusion hk
              · rw [if_neg hcond] at hk
                simp only [FSEntry.isDir, FSEntry.name, Bool.false_or,
                  bne_iff_ne] at hk
                exact hk
            · exact hmd (.file n c) (List.mem_cons_self _ _) rfl
          · rw [show itemLocs (.link dn cp ch
                (some ((sec.getD []) ++ [(i + 1) % 2 ^ 32]))) =
                cp.toList ++ itemsLocs ch from rfl, List.mem_append] at hq
            rcases hq with hq | hq
            · rcases (getPath_shape hres).1 with rfl | rfl
              · simp at hq
              · rw [Option.toList_some, List.mem_singleton] at hq
                subst hq
                have hq1 : ((dp ++ [e.name]) ++
                    [cfg.chapter_file_name ++ ".md"]).length = dp.length + 2 := by
                  simp
                refine ⟨by omega, ?_⟩
                intro h0
                exfalso
                omega
            · have := (ih.1 _ _ _ _ _ _ hgen) q hq
              have hlen : (dp ++ [e.name]).length = dp.length + 1 := by simp
              refine ⟨by omega, ?_⟩
              intro h0
              exfalso
              omega
        · exact ihtl q hq

/-! ### Stem of a name obtained by appending the document extension -/

theorem lastDotPosAux_append_md : ∀ (cs : List Char) (k : Nat) (acc : Option Nat),
    lastDotPosAux (cs ++ ['.', 'm', 'd']) k acc = some (k + cs.length) := by
  intro cs
  induction cs with
  | nil =>
    intro k acc
    show lastDotPosAux ('.' :: 'm' :: 'd' :: []) k acc = some (k + 0)
    rw [lastDotPosAux, if_pos rfl, lastDotPosAux, if_neg (by decide),
      lastDotPosAux, if_neg (by decide), lastDotPosAux]
    rfl
  | cons c cs2 ih =>
    intro k acc
    rw [List.cons_append, lastDotPosAux, ih]
    congr 1
    simp only [List.length_cons]
    omega

theorem rustStemExt_append_md (s : String) (c : Char) (cs2 : List Char)
    (hsd : s.data = c :: cs2) :
    rustStemExt (s ++ ".md") = (s, some "md") := by
  have hdata : (s ++ ".md").data = (c :: cs2) ++ ['.', 'm', 'd'] := by
    rw [strDataAppend, hsd]
  unfold rustStemExt
  simp only [hdata]
  rw [lastDotPosAux_append_md]
  show ((⟨((c :: cs2) ++ ['.', 'm', 'd']).take (0 + (c :: cs2).length)⟩ : String),
      some (⟨((c :: cs2) ++ ['.', 'm', 'd']).drop (0 + (c :: cs2).length + 1)⟩ :
        String)) = (s, some "md")
  have htake : ((c :: cs2) ++ ['.', 'm', 'd']).take (0 + (c :: cs2).length) =
      c :: cs2 := by
    rw [Nat.zero_add, List.take_left]
  have hassoc : (c :: cs2) ++ ['.', 'm', 'd'] =
      ((c :: cs2) ++ ['.']) ++ ['m', 'd'] := by simp
  have hdrop : ((c :: cs2) ++ ['.', 'm', 'd']).drop (0 + (c :: cs2).length + 1) =
      ['m', 'd'] := by
    rw [hassoc]
    apply List.drop_left'
    simp
  rw [htake, hdrop, show (⟨c :: cs2⟩ : String) = s from by rw [← strMkData s, hsd]]

theorem stem_of_index_name (s : String)
    (hext : rustExtension (s ++ ".md") = some "md") :
    rustFileStem (s ++ ".md") = s := by
  cases hsd : s.data with
  | nil =>
    exfalso
    have hs : s = "" := by
      rw [← strMkData s, hsd]
    rw [hs] at hext
    exact Option.noConfusion (hext.symm.trans (by decide : rustExtension ("" ++ ".md") = none))
  | cons c cs2 =>
    rw [rustFileStem, rustStemExt_append_md s c cs2 hsd]

/-- Claim C10: a file named `<chapter_file_name>.md` directly in the root
directory is excluded from the generated chapters even though the root
itself produces no node that could consume it as content: its path never
appears as a content path anywhere in the output tree. -/
theorem claim10_root_index_absent (fuel : Nat) (entries : List FSEntry)
    (cfg : Config) (c : String) (items : List SummaryItem) (fs2 : List FSEntry)
    (hroot : FSEntry.file (cfg.chapter_file_name ++ ".md") c ∈ entries)
    (hrun : generateChapters fuel [] entries none cfg = .ok (items, fs2)) :
    [cfg.chapter_file_name ++ ".md"] ∉ itemsLocs items := by
  intro hq
  obtain ⟨-, hone⟩ :=
    (locs_spec fuel).1 [] entries none cfg items fs2 hrun _ hq
  obtain ⟨fn, heq, hstem, hext⟩ := hone (by simp)
  have hfn : fn = cfg.chapter_file_name ++ ".md" := by
    simpa using heq.symm
  subst hfn
  exact hstem (stem_of_index_name _ hext)

theorem claim10_root_index_absent_witness :
    (generateChapters 10 []
        [FSEntry.file "README.md" "r", FSEntry.file "intro.md" "i"]
        none cfgDefault =
      .ok ([.link "intro" (some ["intro.md"]) [] (some [1])],
        [FSEntry.file "README.md" "r", FSEntry.file "intro.md" "i"])) ∧
    ["README.md"] ∉
      itemsLocs [.link "intro" (some ["intro.md"]) [] (some [1])] :=
  ⟨by rfl,
   claim10_root_index_absent 10
     [FSEntry.file "README.md" "r", FSEntry.file "intro.md" "i"]
     cfgDefault "r" [.link "intro" (some ["intro.md"]) [] (some [1])]
     [FSEntry.file "README.md" "r", FSEntry.file "intro.md" "i"]
     (by decide) (by rfl)⟩

/-! ### Well-formed filesystems and directory lookup -/

mutual

/-- A real directory listing: entry names are distinct and subdirectories
are recursively well formed. -/
def wfEntries : List FSEntry → Bool
  | [] => true
  | e :: rest =>
    rest.all (fun x => x.name != e.name) && wfEntry e && wfEntries rest

/-- Well-formedness of a single entry. -/
def wfEntry : FSEntry → Bool
  | .dir _ es => wfEntries es
  | _ => true

end

/-- Entries of the first directory entry with the given name. -/
def findDirEntries : List FSEntry → String → Option (List FSEntry)
  | [], _ => none
  | .dir m es :: rest, n => if m == n then some es else findDirEntries rest n
  | _ :: rest, n => findDirEntries rest n

/-- The state of a directory entry after a run, read back from the final
parent listing: directories take their (possibly stubbed) entries from
the listing, everything else is unchanged. -/
def refreshEntry (fs : List FSEntry) : FSEntry → FSEntry
  | .dir n es => .dir n ((findDirEntries fs n).getD es)
  | e => e

theorem wf_cons {e : FSEntry} {rest : List FSEntry}
    (h : wfEntries (e :: rest) = true) :
    (∀ x ∈ rest, x.name ≠ e.name) ∧ wfEntry e = true ∧
      wfEntries rest = true := by
  rw [show wfEntries (e :: rest) =
    (rest.all (fun x => x.name != e.name) && wfEntry e && wfEntries rest)
    from rfl] at h
  simp only [Bool.and_eq_true, List.all_eq_true, bne_iff_ne] at h
  exact ⟨h.1.1, h.1.2, h.2⟩

theorem wf_cons_intro {e : FSEntry} {rest : List FSEntry}
    (h1 : ∀ x ∈ rest, x.name ≠ e.name) (h2 : wfEntry e = true)
    (h3 : wfEntries rest = true) : wfEntries (e :: rest) = true := by
  rw [show wfEntries (e :: rest) =
    (rest.all (fun x => x.name != e.name) && wfEntry e && wfEntries rest)
    from rfl]
  simp only [Bool.and_eq_true, List.all_eq_true, bne_iff_ne]
  exact ⟨⟨h1, h2⟩, h3⟩

theorem wf_mem : ∀ {l : List FSEntry}, wfEntries l = true →
    ∀ {e : FSEntry}, e ∈ l → wfEntry e = true := by
  intro l
  induction l with
  | nil => intro h e he; cases he
  | cons x xs ih =>
    intro h e he
    obtain ⟨-, hx, hrest⟩ := wf_cons h
    rcases List.mem_cons.mp he with rfl | he2
    · exact hx
    · exact ih hrest he2

theorem find_of_mem_dir : ∀ {l : List FSEntry}, wfEntries l = true →
    ∀ {n : String} {es : List FSEntry}, (.dir n es) ∈ l →
    findDirEntries l n = some es := by
  intro l
  induction l with
  | nil => intro h n es he; cases he
  | cons x xs ih =>
    intro h n es he
    obtain ⟨hname, -, hrest⟩ := wf_cons h
    rcases List.mem_cons.mp he with rfl | he2
    · show (if n == n then some es else findDirEntries xs n) = some es
      rw [if_pos (by simp)]
    · have hne : n ≠ x.name := by
        have := hname _ he2
        simpa [FSEntry.name] using this
      cases x with
      | dir m es2 =>
        show (if m == n then some es2 else findDirEntries xs n) = some es
        rw [if_neg (by simp [FSEntry.name] at hne; simp; exact fun h2 => hne h2.symm),
          ih hrest he2]
      | file m c =>
        show findDirEntries xs n = some es
        exact ih hrest he2
      | other m =>
        show findDirEntries xs n = some es
        exact ih hrest he2

theorem find_replace : ∀ {l : List FSEntry} {n : String} {es0 : List FSEntry},
    findDirEntries l n = some es0 → ∀ sub : List FSEntry,
    findDirEntries (replaceDirEntry n sub l) n = some sub := by
  intro l
  induction l with
  | nil => intro n es0 h sub; cases h
  | cons x xs ih =>
    intro n es0 h sub
    by_cases hx : (x.isDir && (x.name == n)) = true
    · rw [replaceDirEntry, if_pos hx]
      show (if n == n then some sub else findDirEntries xs n) = some sub
      rw [if_pos (by simp)]
    · rw [replaceDirEntry, if_neg hx]
      cases x with
      | dir m es2 =>
        have hmn : ¬(m == n) = true := by
          intro hc
          exact hx (by simp [FSEntry.isDir, FSEntry.name, hc])
        rw [show findDirEntries (FSEntry.dir m es2 :: replaceDirEntry n sub xs) n =
          (if m == n then some es2 else findDirEntries (replaceDirEntry n sub xs) n)
          from rfl, if_neg hmn]
        rw [show findDirEntries (FSEntry.dir m es2 :: xs) n =
          (if m == n then some es2 else findDirEntries xs n) from rfl,
          if_neg hmn] at h
        exact ih h sub
      | file m c =>
        exact ih h sub
      | other m =>
        exact ih h sub

theorem replace_self : ∀ {l : List FSEntry} {n : String} {es0 : List FSEntry},
    findDirEntries l n = some es0 → replaceDirEntry n es0 l = l := by
  intro l
  induction l with
  | nil => intro n es0 h; cases h
  | cons x xs ih =>
    intro n es0 h
    cases x with
    | dir m es2 =>
      by_cases hmn : (m == n) = true
      · rw [show findDirEntries (FSEntry.dir m es2 :: xs) n =
          (if m == n then some es2 else findDirEntries xs n) from rfl,
          if_pos hmn] at h
        cases h
        rw [replaceDirEntry, if_pos (by simp [FSEntry.isDir, FSEntry.name, hmn])]
        have : m = n := by simpa using hmn
        rw [this]
      · rw [show findDirEntries (FSEntry.dir m es2 :: xs) n =
          (if m == n then some es2 else findDirEntries xs n) from rfl,
          if_neg hmn] at h
        rw [replaceDirEntry,
          if_neg (by simp [FSEntry.isDir, FSEntry.name]; simpa using hmn), ih h]
    | file m c =>
      rw [replaceDirEntry, if_neg (by simp [FSEntry.isDir])]
      rw [show findDirEntries (FSEntry.file m c :: xs) n = findDirEntries xs n
        from rfl] at h
      rw [ih h]
    | other m =>
      rw [replaceDirEntry, if_neg (by simp [FSEntry.isDir])]
      rw [show findDirEntries (FSEntry.other m :: xs) n = findDirEntries xs n
        from rfl] at h
      rw [ih h]

theorem find_replace_ne : ∀ (l : List FSEntry) {m n : String}
    (sub : List FSEntry), m ≠ n →
    findDirEntries (replaceDirEntry m sub l) n = findDirEntries l n := by
  intro l
  induction l with
  | nil => intro m n sub h; rfl
  | cons x xs ih =>
    intro m n sub h
    by_cases hx : (x.isDir && (x.name == m)) = true
    · rw [replaceDirEntry, if_pos hx]
      cases x with
      | dir k es2 =>
        have hkm : k = m := by
          simp only [FSEntry.isDir, FSEntry.name, Bool.true_and,
            beq_iff_eq] at hx
          exact hx
        subst hkm
        show (if k == n then some sub else findDirEntries xs n) =
          (if k == n then some es2 else findDirEntries xs n)
        rw [if_neg (by simpa using h), if_neg (by simpa using h)]
      | file k c => simp [FSEntry.isDir] at hx
      | other k => simp [FSEntry.isDir] at hx
    · rw [replaceDirEntry, if_neg hx]
      cases x with
      | dir k es2 =>
        show (if k == n then some es2 else
            findDirEntries (replaceDirEntry m sub xs) n) =
          (if k == n then some es2 else findDirEntries xs n)
        rw [ih sub h]
      | file k c =>
        show findDirEntries (replaceDirEntry m sub xs) n = findDirEntries xs n
        exact ih sub h
      | other k =>
        show findDirEntries (replaceDirEntry m sub xs) n = findDirEntries xs n
        exact ih sub h

theorem names_replace (n : String) (sub : List FSEntry) :
    ∀ l : List FSEntry,
    (replaceDirEntry n sub l).map FSEntry.name = l.map FSEntry.name := by
  intro l
  induction l with
  | nil => rfl
  | cons x xs ih =>
    by_cases hx : (x.isDir && (x.name == n)) = true
    · rw [replaceDirEntry, if_pos hx]
      have hxn : x.name = n := by
        simp only [Bool.and_eq_true, beq_iff_eq] at hx
        exact hx.2
      show n :: List.map FSEntry.name xs = x.name :: List.map FSEntry.name xs
      rw [hxn]
    · rw [replaceDirEntry, if_neg hx]
      simp [ih]

theorem wf_replace : ∀ {l : List FSEntry} {n : String} {sub : List FSEntry},
    wfEntries l = true → wfEntries sub = true →
    wfEntries (replaceDirEntry n sub l) = true := by
  intro l
  induction l with
  | nil => intro n sub h hsub; exact h
  | cons x xs ih =>
    intro n sub h hsub
    obtain ⟨hnames, hx, hxs⟩ := wf_cons h
    by_cases hcond : (x.isDir && (x.name == n)) = true
    · rw [replaceDirEntry, if_pos hcond]
      have hxn : x.name = n := by
        simp only [Bool.and_eq_true, beq_iff_eq] at hcond
        exact hcond.2
      refine wf_cons_intro ?_ hsub hxs
      intro y hy
      rw [show FSEntry.name (.dir n sub) = n from rfl, ← hxn]
      exact hnames y hy
    · rw [replaceDirEntry, if_neg hcond]
      refine wf_cons_intro ?_ hx (ih hxs hsub)
      intro y hy
      have h1 : y.name ∈ (replaceDirEntry n sub xs).map FSEntry.name :=
        List.mem_map_of_mem _ hy
      rw [names_replace] at h1
      obtain ⟨z, hz, hzname⟩ := List.mem_map.mp h1
      rw [← hzname]
      exact hnames z hz

theorem wf_append_stub : ∀ {es : List FSEntry} {nm c : String},
    wfEntries es = true → entryExists es nm = false →
    wfEntries (es ++ [.file nm c]) = true := by
  intro es
  induction es with
  | nil => intro nm c h hex; rfl
  | cons e rest ih =>
    intro nm c h hex
    rw [entryExists] at hex
    simp only [List.any_cons, Bool.or_eq_false_iff, beq_eq_false_iff_ne] at hex
    obtain ⟨hne, hrest⟩ := hex
    obtain ⟨hnames, he, hwrest⟩ := wf_cons h
    rw [List.cons_append]
    refine wf_cons_intro ?_ he (ih hwrest hrest)
    intro x hx
    rcases List.mem_append.mp hx with hx1 | hx1
    · exact hnames x hx1
    · rw [List.mem_singleton] at hx1
      subst hx1
      exact fun hc => hne (by rw [← hc]; rfl)

theorem entryExists_eq_names : ∀ (l : List FSEntry) (n : String),
    entryExists l n = (l.map FSEntry.name).any (fun m => m == n) := by
  intro l n
  induction l with
  | nil => rfl
  | cons x xs ih =>
    rw [entryExists] at ih ⊢
    simp [List.any_cons, ih]

theorem entryExists_congr_names {l l2 : List FSEntry} (n : String)
    (h : l.map FSEntry.name = l2.map FSEntry.name) :
    entryExists l n = entryExists l2 n := by
  rw [entryExists_eq_names, entryExists_eq_names, h]

theorem entryExists_append_self (es : List FSEntry) (nm c : String) :
    entryExists (es ++ [.file nm c]) nm = true := by
  rw [entryExists_eq_names]
  simp [List.any_append, FSEntry.name]

theorem getPath_nowrite {dp : List String} {es : List FSEntry} {cfg : Config}
    {cp : Option (List String)} {es' : List FSEntry}
    (hc : cfg.create_missing_chapter_files = false)
    (h : getPathToDirectoryContent dp es cfg = .ok (cp, es')) : es' = es := by
  cases hex : entryExists es (cfg.chapter_file_name ++ ".md") with
  | true =>
    rw [getPath_eq_exists hex] at h
    cases h
    rfl
  | false =>
    cases hi : cfg.ignore_missing_chapter_files with
    | true =>
      rw [getPath_eq_ignore hex hc hi] at h
      cases h
      rfl
    | false =>
      rw [getPath_eq_strict hex hc hi] at h
      exact Except.noConfusion h

theorem getPath_stable {dp : List String} {es : List FSEntry} {cfg : Config}
    {cp : Option (List String)} {es' : List FSEntry}
    (h : getPathToDirectoryContent dp es cfg = .ok (cp, es'))
    (es2 : List FSEntry)
    (hn : es2.map FSEntry.name = es'.map FSEntry.name) :
    getPathToDirectoryContent dp es2 cfg = .ok (cp, es2) := by
  cases hex : entryExists es (cfg.chapter_file_name ++ ".md") with
  | true =>
    rw [getPath_eq_exists hex] at h
    cases h
    have hex2 : entryExists es2 (cfg.chapter_file_name ++ ".md") = true := by
      rw [entryExists_congr_names _ hn]
      exact hex
    exact getPath_eq_exists hex2
  | false =>
    cases hc : cfg.create_missing_chapter_files with
    | true =>
      rw [getPath_eq_create hex hc] at h
      cases h
      have hex2 : entryExists es2 (cfg.chapter_file_name ++ ".md") = true := by
        rw [entryExists_congr_names _ hn]
        exact entryExists_append_self _ _ _
      exact getPath_eq_exists hex2
    | false =>
      cases hi : cfg.ignore_missing_chapter_files with
      | true =>
        rw [getPath_eq_ignore hex hc hi] at h
        cases h
        have hex2 : entryExists es2 (cfg.chapter_file_name ++ ".md") = false := by
          rw [entryExists_congr_names _ hn]
          exact hex
        exact getPath_eq_ignore hex2 hc hi
      | false =>
        rw [getPath_eq_strict hex hc hi] at h
        exact Except.noConfusion h

theorem go_find_ne : ∀ (kept : List FSEntry) (fuel : Nat) (dp : List String)
    (sec : Option (List Nat)) (cfg : Config) (i : Nat) (pe : List FSEntry)
    (items : List SummaryItem) (pe' : List FSEntry) (n : String),
    goEntries fuel dp sec cfg kept i pe = .ok (items, pe') →
    (∀ x ∈ kept, x.name ≠ n) →
    findDirEntries pe' n = findDirEntries pe n := by
  intro kept
  induction kept with
  | nil =>
    intro fuel dp sec cfg i pe items pe' n h hn
    rw [goEntries_nil] at h
    cases h
    rfl
  | cons e rest ih =>
    intro fuel dp sec cfg i pe items pe' n h hn
    cases fuel with
    | zero =>
      rw [goEntries_cons_zero] at h
      exact Except.noConfusion h
    | succ f =>
      obtain ⟨hd, tl, pe1, rfl, hrec, hcase⟩ := goEntries_cons_split h
      have hrest := ih f dp sec cfg (i + 1) pe1 tl pe' n hrec
        (fun x hx => hn x (List.mem_cons_of_mem e hx))
      rcases hcase with ⟨n2, c, dn, rfl, rfl, -, -⟩ |
        ⟨-, cp, sub1, ch, sub2, dn, -, -, -, rfl, -⟩
      · exact hrest
      · rw [hrest, find_replace_ne pe sub2 (hn e (List.mem_cons_self e rest))]

/-! ### The traversal pipeline respects the shape relation -/

theorem shapeL_filter {p : FSEntry → Bool}
    (hp : ∀ {a b : FSEntry}, EShape a b → p a = p b) :
    ∀ {l l2 : List FSEntry}, ShapeL l l2 →
    ShapeL (l.filter p) (l2.filter p) := by
  intro l l2 h
  induction h with
  | nil => exact List.Forall₂.nil
  | @cons a b la lb ha hl ih =>
    have hpb : p b = p a := (hp ha).symm
    cases hpa : p a with
    | true =>
      rw [List.filter_cons, List.filter_cons, hpa, hpb, hpa]
      exact List.Forall₂.cons ha ih
    | false =>
      rw [List.filter_cons, List.filter_cons, hpa, hpb, hpa]
      exact ih

theorem shapeL_orderedInsert : ∀ {e e2 : FSEntry}, EShape e e2 →
    ∀ {l l2 : List FSEntry}, ShapeL l l2 →
    ShapeL (List.orderedInsert entryLe e l) (List.orderedInsert entryLe e2 l2) := by
  intro e e2 he l l2 h
  induction h with
  | nil => exact List.Forall₂.cons he List.Forall₂.nil
  | @cons a b la lb ha hl ih =>
    rw [List.orderedInsert, List.orderedInsert]
    have hiff : entryLe e a ↔ entryLe e2 b := by
      unfold entryLe
      rw [eshape_name he, eshape_name ha]
    by_cases hle : entryLe e a
    · rw [if_pos hle, if_pos (hiff.mp hle)]
      exact List.Forall₂.cons he (List.Forall₂.cons ha hl)
    · rw [if_neg hle, if_neg (fun hc => hle (hiff.mpr hc))]
      exact List.Forall₂.cons ha ih

theorem shapeL_sort : ∀ {l l2 : List FSEntry}, ShapeL l l2 →
    ShapeL (sortByFileName l) (sortByFileName l2) := by
  intro l l2 h
  induction h with
  | nil => exact List.Forall₂.nil
  | @cons a b la lb ha hl ih => exact shapeL_orderedInsert ha ih

theorem mdPred_shape : ∀ {a b : FSEntry}, EShape a b →
    (if a.isFile then rustExtension a.name == some "md" else a.isDir) =
    (if b.isFile then rustExtension b.name == some "md" else b.isDir) := by
  intro a b h
  cases h <;> rfl

theorem keepEntry_shape (sec : Option (List Nat)) (cfg : Config) :
    ∀ {a b : FSEntry}, EShape a b → keepEntry sec cfg a = keepEntry sec cfg b := by
  intro a b h
  cases h <;> rfl

theorem shapeL_pipeline (sec : Option (List Nat)) (cfg : Config)
    {l l2 : List FSEntry} (h : ShapeL l l2) :
    ShapeL ((sortByFileName (getMarkdownFilesAndDirectories l)).filter
        (keepEntry sec cfg))
      ((sortByFileName (getMarkdownFilesAndDirectories l2)).filter
        (keepEntry sec cfg)) :=
  shapeL_filter (keepEntry_shape sec cfg)
    (shapeL_sort (shapeL_filter mdPred_shape h))

theorem mem_pipeline {e : FSEntry} {l : List FSEntry}
    {sec : Option (List Nat)} {cfg : Config}
    (h : e ∈ (sortByFileName (getMarkdownFilesAndDirectories l)).filter
      (keepEntry sec cfg)) : e ∈ l := by
  have h1 := List.mem_of_mem_filter h
  have h2 := (List.perm_insertionSort entryLe _).mem_iff.mp h1
  exact List.mem_of_mem_filter h2

theorem fileOrDir_pipeline {e : FSEntry} {l : List FSEntry}
    {sec : Option (List Nat)} {cfg : Config}
    (h : e ∈ (sortByFileName (getMarkdownFilesAndDirectories l)).filter
      (keepEntry sec cfg)) : (e.isFile || e.isDir) = true := by
  have h1 := List.mem_of_mem_filter h
  have h2 := (List.perm_insertionSort entryLe _).mem_iff.mp h1
  have h3 := List.of_mem_filter h2
  cases e with
  | file n c => rfl
  | dir n es => rfl
  | other n => simp [FSEntry.isFile, FSEntry.isDir] at h3

theorem nodup_names_pipeline {l : List FSEntry} (sec : Option (List Nat))
    (cfg : Config) (h : (l.map FSEntry.name).Nodup) :
    (((sortByFileName (getMarkdownFilesAndDirectories l)).filter
      (keepEntry sec cfg)).map FSEntry.name).Nodup := by
  have s1 : List.Sublist (getMarkdownFilesAndDirectories l) l :=
    List.filter_sublist _
  have n1 : ((getMarkdownFilesAndDirectories l).map FSEntry.name).Nodup :=
    (s1.map FSEntry.name).nodup h
  have p2 : List.Perm (sortByFileName (getMarkdownFilesAndDirectories l))
      (getMarkdownFilesAndDirectories l) := List.perm_insertionSort _ _
  have n2 : ((sortByFileName (getMarkdownFilesAndDirectories l)).map
      FSEntry.name).Nodup := ((p2.map FSEntry.name).nodup_iff).mpr n1
  have s3 : List.Sublist
      ((sortByFileName (getMarkdownFilesAndDirectories l)).filter
        (keepEntry sec cfg))
      (sortByFileName (getMarkdownFilesAndDirectories l)) :=
    List.filter_sublist _
  exact (s3.map FSEntry.name).nodup n2

theorem wf_names_nodup : ∀ {l : List FSEntry}, wfEntries l = true →
    (l.map FSEntry.name).Nodup := by
  intro l
  induction l with
  | nil => intro h; exact List.nodup_nil
  | cons x xs ih =>
    intro h
    obtain ⟨hnames, -, hrest⟩ := wf_cons h
    rw [List.map_cons, List.nodup_cons]
    refine ⟨?_, ih hrest⟩
    intro hmem
    obtain ⟨y, hy, hyname⟩ := List.mem_map.mp hmem
    exact hnames y hy hyname

theorem refresh_eq_of_shape {fs : List FSEntry} :
    ∀ {k1 k2 : List FSEntry}, ShapeL k1 k2 →
    (∀ x ∈ k2, x.isDir = true → findDirEntries fs x.name = some x.entriesD) →
    k2 = k1.map (refreshEntry fs) := by
  intro k1 k2 h
  induction h with
  | nil => intro h2; rfl
  | @cons a b la lb ha hl ih =>
    intro h2
    have htl := ih (fun x hx hxd => h2 x (List.mem_cons_of_mem b hx) hxd)
    cases ha with
    | file n c =>
      rw [List.map_cons, ← htl]
      rfl
    | other n =>
      rw [List.map_cons, ← htl]
      rfl
    | dir n es es2 =>
      have hfind : findDirEntries fs n = some es2 :=
        h2 (.dir n es2) (List.mem_cons_self _ _) rfl
      rw [List.map_cons, ← htl,
        show refreshEntry fs (.dir n es) =
          .dir n ((findDirEntries fs n).getD es) from rfl, hfind]
      rfl

theorem getPath_wf {dp : List String} {es : List FSEntry} {cfg : Config}
    {cp : Option (List String)} {sub1 : List FSEntry}
    (hwf : wfEntries es = true)
    (h : getPathToDirectoryContent dp es cfg = .ok (cp, sub1)) :
    wfEntries sub1 = true := by
  cases hex : entryExists es (cfg.chapter_file_name ++ ".md") with
  | true =>
    rw [getPath_eq_exists hex] at h
    cases h
    exact hwf
  | false =>
    cases hc : cfg.create_missing_chapter_files with
    | true =>
      rw [getPath_eq_create hex hc] at h
      cases h
      exact wf_append_stub hwf hex
    | false =>
      cases hi : cfg.ignore_missing_chapter_files with
      | true =>
        rw [getPath_eq_ignore hex hc hi] at h
        cases h
        exact hwf
      | false =>
        rw [getPath_eq_strict hex hc hi] at h
        exact Except.noConfusion h

/-! ### A second run over the produced filesystem reproduces the run -/

theorem idem_main : ∀ fuel : Nat,
    (∀ (dp : List String) (entries : List FSEntry) (sec : Option (List Nat))
      (cfg : Config) (items : List SummaryItem) (fs2 : List FSEntry),
      wfEntries entries = true →
      generateChapters fuel dp entries sec cfg = .ok (items, fs2) →
      wfEntries fs2 = true ∧
      generateChapters fuel dp fs2 sec cfg = .ok (items, fs2) ∧
      (cfg.create_missing_chapter_files = false → fs2 = entries)) ∧
    (∀ (kept : List FSEntry) (dp : List String) (sec : Option (List Nat))
      (cfg : Config) (i : Nat) (pe : List FSEntry) (items : List SummaryItem)
      (pe' : List FSEntry),
      wfEntries pe = true →
      ((kept.map FSEntry.name).Nodup) →
      (∀ x ∈ kept, (x.isFile || x.isDir) = true) →
      (∀ x ∈ kept, x.isDir = true →
        findDirEntries pe x.name = some x.entriesD ∧
        wfEntries x.entriesD = true) →
      goEntries fuel dp sec cfg kept i pe = .ok (items, pe') →
      wfEntries pe' = true ∧
      goEntries fuel dp sec cfg (kept.map (refreshEntry pe')) i pe' =
        .ok (items, pe') ∧
      (cfg.create_missing_chapter_files = false → pe' = pe)) := by
  intro fuel
  induction fuel with
  | zero =>
    constructor
    · intro dp entries sec cfg items fs2 hwf h
      rw [generateChapters_zero] at h
      exact Except.noConfusion h
    · intro kept dp sec cfg i pe items pe' hwf hnod hford hdirs h
      cases kept with
      | nil =>
        rw [goEntries_nil] at h
        cases h
        exact ⟨hwf, goEntries_nil _ _ _ _ _ _, fun _ => rfl⟩
      | cons e rest =>
        rw [goEntries_cons_zero] at h
        exact Except.noConfusion h
  | succ f ih =>
    constructor
    · intro dp entries sec cfg items fs2 hwf h
      rw [generateChapters_succ] at h
      obtain ⟨hwf2, hrun2, hnowrite⟩ := ih.2 _ dp sec cfg 0 entries items fs2
        hwf (nodup_names_pipeline sec cfg (wf_names_nodup hwf))
        (fun x hx => fileOrDir_pipeline hx)
        (by
          intro x hx hxd
          cases x with
          | file n c => simp [FSEntry.isDir] at hxd
          | other n => simp [FSEntry.isDir] at hxd
          | dir n es =>
            have hmem := mem_pipeline hx
            exact ⟨find_of_mem_dir hwf hmem, wf_mem hwf hmem⟩)
        h
      refine ⟨hwf2, ?_, hnowrite⟩
      rw [generateChapters_succ]
      have hshape : ShapeL entries fs2 := (shape_preservation f).2 _ _ _ _ _ _ _ _ h
      have hkshape := shapeL_pipeline sec cfg hshape
      have hpipe : (sortByFileName (getMarkdownFilesAndDirectories fs2)).filter
          (keepEntry sec cfg) =
          ((sortByFileName (getMarkdownFilesAndDirectories entries)).filter
            (keepEntry sec cfg)).map (refreshEntry fs2) := by
        refine refresh_eq_of_shape hkshape ?_
        intro x hx hxd
        cases x with
        | file n c => simp [FSEntry.isDir] at hxd
        | other n => simp [FSEntry.isDir] at hxd
        | dir n es => exact find_of_mem_dir hwf2 (mem_pipeline hx)
      rw [hpipe]
      exact hrun2
    · intro kept dp sec cfg i pe items pe' hwf hnod hford hdirs h
      cases kept with
      | nil =>
        rw [goEntries_nil] at h
        cases h
        exact ⟨hwf, goEntries_nil _ _ _ _ _ _, fun _ => rfl⟩
      | cons e rest =>
        obtain ⟨hd, tl, pe1, rfl, hrec, hcase⟩ := goEntries_cons_split h
        rw [List.map_cons, List.nodup_cons] at hnod
        obtain ⟨hnotin, hnodrest⟩ := hnod
        have hrestne : ∀ x ∈ rest, x.name ≠ e.name := by
          intro x hx hc
          exact hnotin (hc ▸ List.mem_map_of_mem FSEntry.name hx)
        rcases hcase with ⟨n, c, dn, rfl, rfl, hname, rfl⟩ |
          ⟨hnf, cp, sub1, ch, sub2, dn, hres, hgen, hname, rfl, rfl⟩
        · obtain ⟨hwfpe', hrec2, hnowrite⟩ := ih.2 rest dp sec cfg (i + 1) _
            tl pe' hwf hnodrest
            (fun x hx => hford x (List.mem_cons_of_mem _ hx))
            (fun x hx => hdirs x (List.mem_cons_of_mem _ hx))
            hrec
          refine ⟨hwfpe', ?_, hnowrite⟩
          rw [List.map_cons]
          show goEntries (f + 1) dp sec cfg
            (.file n c :: rest.map (refreshEntry pe')) i pe' = _
          simp only [goEntries_file, hname, hrec2]
        · cases e with
          | file n2 c2 => simp [FSEntry.isFile] at hnf
          | other n2 =>
            have := hford _ (List.mem_cons_self _ _)
            simp [FSEntry.isFile, FSEntry.isDir] at this
          | dir n es =>
            have hrec2a : goEntries f dp sec cfg rest (i + 1)
                (replaceDirEntry n sub2 pe) = Except.ok (tl, pe') := hrec
            have hrestne2 : ∀ x ∈ rest, x.name ≠ n := hrestne
            obtain ⟨hfindpe0, hwfes0⟩ := hdirs _ (List.mem_cons_self _ _) rfl
            have hfindpe : findDirEntries pe n = some es := hfindpe0
            have hwfes : wfEntries es = true := hwfes0
            have hwfsub1 : wfEntries sub1 = true := getPath_wf hwfes hres
            obtain ⟨hwfsub2, hgen2, hgennw⟩ := ih.1 _ _ _ _ _ _ hwfsub1 hgen
            have hnames_sub : sub2.map FSEntry.name = sub1.map FSEntry.name :=
              (namesL_shape (genShape hgen)).symm
            have hres2 := getPath_stable hres sub2 hnames_sub
            have hwfpe1 : wfEntries (replaceDirEntry n sub2 pe) = true :=
              wf_replace hwf hwfsub2
            obtain ⟨hwfpe', hrec2, hnwrest⟩ := ih.2 rest dp sec cfg (i + 1)
              (replaceDirEntry n sub2 pe) tl pe' hwfpe1 hnodrest
              (fun x hx => hford x (List.mem_cons_of_mem _ hx))
              (by
                intro x hx hxd
                obtain ⟨hf1, hf2⟩ := hdirs x (List.mem_cons_of_mem _ hx) hxd
                refine ⟨?_, hf2⟩
                rw [find_replace_ne pe sub2 (Ne.symm (hrestne2 x hx)), hf1])
              hrec2a
            have hfind1 : findDirEntries (replaceDirEntry n sub2 pe) n =
                some sub2 := find_replace hfindpe sub2
            have hfindpe' : findDirEntries pe' n = some sub2 := by
              rw [go_find_ne rest f dp sec cfg (i + 1) _ tl pe' n hrec2a hrestne2]
              exact hfind1
            have hreplace : replaceDirEntry n sub2 pe' = pe' :=
              replace_self hfindpe'
            refine ⟨hwfpe', ?_, ?_⟩
            · rw [List.map_cons,
                show refreshEntry pe' (.dir n es) = .dir n sub2 from by
                  rw [show refreshEntry pe' (.dir n es) =
                    .dir n ((findDirEntries pe' n).getD es) from rfl, hfindpe']
                  rfl]
              have hres3 : getPathToDirectoryContent (dp ++ [n]) sub2 cfg =
                  Except.ok (cp, sub2) := hres2
              have hgen3 : generateChapters f (dp ++ [n]) sub2
                  (some ((sec.getD []) ++ [(i + 1) % 2 ^ 32])) cfg =
                  Except.ok (ch, sub2) := hgen2
              have hname3 : getChapterName
                  (Option.map (fun x =>
                    fetchContent sub2 (cfg.chapter_file_name ++ ".md")) cp)
                  cfg (rustFileStem n) = Except.ok dn := hname
              simp only [goEntries_dir, hres3, hgen3, hname3, hreplace, hrec2]
            · intro hc
              rw [hnwrest hc, hgennw hc, getPath_nowrite hc hres]
              exact replace_self hfindpe

/-- Claim C8: over a well-formed filesystem, running the builder twice
yields structurally identical trees: the second run — over the
filesystem state the first run left behind — produces exactly the same
items and changes nothing further; and when `create_missing_chapter_files`
is disabled the first run already leaves the filesystem untouched, so
the two runs are runs over identical filesystems. -/
theorem claim8_idempotent (fuel : Nat) (dp : List String)
    (entries : List FSEntry) (sec : Option (List Nat)) (cfg : Config)
    (items : List SummaryItem) (fs2 : List FSEntry)
    (hwf : wfEntries entries = true)
    (hrun : generateChapters fuel dp entries sec cfg = .ok (items, fs2)) :
    generateChapters fuel dp fs2 sec cfg = .ok (items, fs2) ∧
    (cfg.create_missing_chapter_files = false → fs2 = entries) :=
  ⟨((idem_main fuel).1 dp entries sec cfg items fs2 hwf hrun).2.1,
   ((idem_main fuel).1 dp entries sec cfg items fs2 hwf hrun).2.2⟩

theorem claim8_idempotent_witness :
    (generateChapters 10 [] [FSEntry.dir "guide" [FSEntry.file "setup.md" "s"]]
        none cfgCreate =
      .ok ([.link "guide" (some ["guide", "README.md"])
              [.link "setup" (some ["guide", "setup.md"]) [] (some [1, 1])]
              (some [1])],
        [FSEntry.dir "guide"
          [FSEntry.file "setup.md" "s",
           FSEntry.file "README.md" "# README.md"]])) ∧
    (generateChapters 10 []
        [FSEntry.dir "guide"
          [FSEntry.file "setup.md" "s", FSEntry.file "README.md" "# README.md"]]
        none cfgCreate =
      .ok ([.link "guide" (some ["guide", "README.md"])
              [.link "setup" (some ["guide", "setup.md"]) [] (some [1, 1])]
              (some [1])],
        [FSEntry.dir "guide"
          [FSEntry.file "setup.md" "s",
           FSEntry.file "README.md" "# README.md"]])) ∧
    exFS5 = exFS5 :=
  ⟨by rfl,
   (claim8_idempotent 10 [] [FSEntry.dir "guide" [FSEntry.file "setup.md" "s"]]
      none cfgCreate
      [.link "guide" (some ["guide", "README.md"])
         [.link "setup" (some ["guide", "setup.md"]) [] (some [1, 1])]
         (some [1])]
      [FSEntry.dir "guide"
        [FSEntry.file "setup.md" "s", FSEntry.file "README.md" "# README.md"]]
      (by decide) (by rfl)).1,
   (claim8_idempotent 10 [] exFS5 none cfgDefault exItems5 exFS5
      (by decide) (by rfl)).2 rfl ▸ rfl⟩
